import Mathlib

/-!
Shallow embedding of the acquisition-merge-validate-analyze pipeline of the
Crypto-prediction-AI repository (`index.js`, `src/fetcher.js`,
`src/exchanges/BaseExchange.js`, `src/exchanges/OKXExchange.js`).

Modelling conventions, used uniformly below:
* A calendar date (the `date` field, a `'YYYY-MM-DD'` string in the code) is
  modelled as a `Nat`: the day number since the Unix epoch.  The string order
  of `'YYYY-MM-DD'` strings, the numeric order of `new Date(s).getTime()`
  used by the sorts, and the order of the day numbers all agree, so the
  encoding is order-faithful.
* A JS number field produced by `parseFloat` is modelled as `Option ℚ`:
  `some q` is an ordinary (finite) number, `none` is `NaN`.  Records built by
  the exchanges' `formatData` always carry all of their numeric keys, so a
  missing record is represented by the absence of the assoc-list entry, and
  `none` inside a present record is exactly a `NaN` field.
* JS objects used as string-keyed maps are modelled as assoc lists in
  insertion order (`Object.keys` order); a JS `Map` keyed by date is an
  assoc list of records in insertion order.
-/

/-- Comparisons against `NaN` are false in JS: `v > x` with `v : Option ℚ`
(`none` = `NaN`). -/
def jsGt (v : Option ℚ) (x : ℚ) : Bool :=
  match v with
  | some q => decide (x < q)
  | none => false

/-- JS addition where `NaN` (modelled as `none`) poisons the result. -/
def jsAdd (a b : Option ℚ) : Option ℚ :=
  match a, b with
  | some x, some y => some (x + y)
  | _, _ => none

/-- JS subtraction where `NaN` (modelled as `none`) poisons the result. -/
def jsSub (a b : Option ℚ) : Option ℚ :=
  match a, b with
  | some x, some y => some (x - y)
  | _, _ => none

/-- Turns a list of JS numbers into a list of rationals when no entry is
`NaN`; `none` as soon as one entry is `NaN`. -/
def allSomes : List (Option ℚ) → Option (List ℚ)
  | [] => some []
  | none :: _ => none
  | some x :: rest => (allSomes rest).map (fun l => x :: l)

/-- Sum of a list of rationals (the JS `reduce((a, b) => a + b)` over a
nonempty list, and `reduce(..., 0)` over any list). -/
def qSum (l : List ℚ) : ℚ := l.foldl (· + ·) 0

/-- JS `Math.max(...l)` over a nonempty list of finite numbers (`0` for `[]`,
which the code never evaluates: every use is guarded by a nonemptiness
check). -/
def qMax : List ℚ → ℚ
  | [] => 0
  | x :: xs => xs.foldl max x

/-- JS `Math.min(...l)` over a nonempty list of finite numbers (same guard as
`qMax`). -/
def qMin : List ℚ → ℚ
  | [] => 0
  | x :: xs => xs.foldl min x

/-- One daily kline record as produced by an exchange's `formatData`
(`{date, open, high, low, close, volume, quoteVolume}`).  Numeric fields are
`parseFloat` results, hence `Option ℚ` with `none` = `NaN`. -/
structure Kline where
  date : Nat
  open_ : Option ℚ
  high : Option ℚ
  low : Option ℚ
  close : Option ℚ
  volume : Option ℚ
  quoteVolume : Option ℚ := none
deriving DecidableEq

/-- One merged per-date record: `{date, exchanges: {sourceName: Kline}}`.
The `exchanges` object is an assoc list in key-insertion order. -/
structure MergedDay where
  date : Nat
  exchanges : List (String × Kline)
deriving DecidableEq

/-- One per-source fetch result as returned by `fetchExchangeData`:
`{name: exchange.name, data: records}`. -/
structure ExchResult where
  name : String
  data : List Kline
deriving DecidableEq

/-- JS object property read `ex[name]` on the `exchanges` object (objects
have unique keys, so first-match lookup). -/
def lookupEx : List (String × Kline) → String → Option Kline
  | [], _ => none
  | (k, v) :: rest, n => if k = n then some v else lookupEx rest n

/-- JS object property write `ex[name] = k`: an existing key keeps its
position and gets the new value, a new key is appended. -/
def setEntry : List (String × Kline) → String → Kline → List (String × Kline)
  | [], n, k => [(n, k)]
  | (k', v) :: rest, n, k =>
      if k' = n then (k', k) :: rest else (k', v) :: setEntry rest n k

/-- The body of the inner `forEach` of `mergeExchangeData`: ensure the map
has an entry for `k.date` (appending `{date, exchanges: {}}` if absent, as a
JS `Map` appends new keys) and set `entry.exchanges[name] = k`. -/
def insertDay : List MergedDay → String → Kline → List MergedDay
  | [], name, k => [⟨k.date, [(name, k)]⟩]
  | d :: rest, name, k =>
      if d.date = k.date then ⟨d.date, setEntry d.exchanges name k⟩ :: rest
      else d :: insertDay rest name k

/-- Date-keyed comparator used by `.sort((a, b) => new Date(a.date) - new Date(b.date))`. -/
def dateLe (a b : MergedDay) : Prop := a.date ≤ b.date

instance : DecidableRel dateLe := fun a b => Nat.decLe a.date b.date

instance : IsTotal MergedDay dateLe := ⟨fun a b => Nat.le_total a.date b.date⟩

instance : IsTrans MergedDay dateLe := ⟨fun _ _ _ => Nat.le_trans⟩

/-- Model of `mergeExchangeData(results)` from `index.js`: fold every source's records
into a date-keyed map (`exchanges[result.name] = dayData`, later assignments
overwriting earlier ones), then sort the values ascending by date.  The JS
engine's stable sort is modelled by `List.insertionSort`. -/
def mergeExchangeData (results : List ExchResult) : List MergedDay :=
  (results.foldl
      (fun m r => r.data.foldl (fun m' k => insertDay m' r.name k) m) []).insertionSort
    dateLe
/-- Anomaly entry pushed by the completeness rule:
`{date, exchanges: keys}`. -/
structure MissingAnomaly where
  date : Nat
  exchanges : List String
deriving DecidableEq

/-- Anomaly entry pushed by the cross-source deviation rule:
`{date, exchanges, maxDiff, diffPercent}`.  `none` in a numeric payload
abstracts a non-finite float (the rule can only push finite values, but the
fields are computed before the guard in this model). -/
structure PriceDiffAnomaly where
  date : Nat
  exchanges : List String
  maxDiff : Option ℚ
  diffPercent : Option ℚ
deriving DecidableEq

/-- Anomaly entry pushed by the volume-spike rule:
`{date, exchange, volume, avgVolume}`. -/
structure VolumeSpikeAnomaly where
  date : Nat
  exchange : String
  volume : Option ℚ
  avgVolume : Option ℚ
deriving DecidableEq

/-- Anomaly entry pushed by the price-gap rule:
`{date, exchange, gapPercent, prevClose, currOpen}`. -/
structure PriceGapAnomaly where
  date : Nat
  exchange : String
  gapPercent : Option ℚ
  prevClose : Option ℚ
  currOpen : Option ℚ
deriving DecidableEq

/-- The `anomalies` object of `validateData`'s result. -/
structure Anomalies where
  priceDiff : List PriceDiffAnomaly
  volumeSpikes : List VolumeSpikeAnomaly
  dataMissing : List MissingAnomaly
  priceGaps : List PriceGapAnomaly
deriving DecidableEq

/-- The `stats` object of `validateData`'s result.  `exchangeCoverage` is a
JS object used as a counter map. -/
structure ValidationStats where
  totalDays : Nat
  validDays : Nat
  exchangeCoverage : List (String × Nat)
deriving DecidableEq

/-- The full result object of `validateData`. -/
structure ValidationResults where
  valid : List MergedDay
  anomalies : Anomalies
  stats : ValidationStats
deriving DecidableEq

/-- Rule 1 of `validateData`: every source present on the day has all five
OHLCV fields numeric (`!isNaN(...)` on each). -/
def dataCompleteness (d : MergedDay) : Bool :=
  d.exchanges.all fun p =>
    p.2.open_.isSome && p.2.high.isSome && p.2.low.isSome && p.2.close.isSome &&
      p.2.volume.isSome

/-- The `dataMissing` entries pushed for one day (zero or one). -/
def missEntries (d : MergedDay) : List MissingAnomaly :=
  if dataCompleteness d then []
  else [{ date := d.date, exchanges := d.exchanges.map Prod.fst }]

/-- The closes of all sources reporting on the day
(`exchanges.map(e => dayData.exchanges[e].close)`). -/
def closesOf (d : MergedDay) : List (Option ℚ) :=
  d.exchanges.map fun p => p.2.close

/-- Rule 2 condition, `diffPercent > 1`, with JS float semantics made exact:
if some close is `NaN` every derived comparison is false; if the mean is `0`
then `maxDiff / 0 * 100` is `+Infinity` when `maxDiff > 0` (so `> 1` holds)
and `NaN` when `maxDiff = 0` (so `> 1` fails); otherwise the value is the
rational `(max - min) / mean * 100`. -/
def deviationFires (closes : List (Option ℚ)) : Bool :=
  match allSomes closes with
  | none => false
  | some ps =>
      let avg := qSum ps / (ps.length : ℚ)
      let maxDiff := qMax ps - qMin ps
      if avg = 0 then decide (0 < maxDiff) else decide (1 < maxDiff / avg * 100)

/-- The `priceDiff` entries pushed for one day (zero or one; the rule runs
only when at least two sources report). -/
def devEntries (d : MergedDay) : List PriceDiffAnomaly :=
  if 1 < d.exchanges.length && deviationFires (closesOf d) then
    [{ date := d.date
       exchanges := d.exchanges.map Prod.fst
       maxDiff := (allSomes (closesOf d)).map fun ps => qMax ps - qMin ps
       diffPercent :=
         (allSomes (closesOf d)).bind fun ps =>
           let avg := qSum ps / (ps.length : ℚ)
           if avg = 0 then none else some ((qMax ps - qMin ps) / avg * 100) }]
  else []

/-- Model of `calculateAverageVolume(data, exchange, currentIndex)`: the volumes of
the up-to-30 prior days on which the source has a record
(`data.slice(max(0, i - 30), i).map(d => d.exchanges[ex]?.volume).filter(v => v !== undefined)`),
averaged; `0` when no prior record exists.  A present record whose `volume`
is `NaN` passes the `!== undefined` filter and poisons the average
(`none`). -/
def calculateAverageVolume (data : List MergedDay) (exchange : String)
    (currentIndex : Nat) : Option ℚ :=
  let startIndex := currentIndex - 30
  let volumes :=
    ((data.drop startIndex).take (currentIndex - startIndex)).filterMap fun d =>
      (lookupEx d.exchanges exchange).map fun k => k.volume
  if volumes.isEmpty then some 0
  else
    match allSomes volumes with
    | some vs => some (qSum vs / (vs.length : ℚ))
    | none => none

/-- Rule 3 condition for one source: `volume > avgVolume * 3` (false whenever
either side is `NaN`). -/
def spikeFires (volume avgVolume : Option ℚ) : Bool :=
  match volume, avgVolume with
  | some v, some a => decide (a * 3 < v)
  | _, _ => false

/-- The `volumeSpikes` entries pushed for one day, in source-key order. -/
def spikeEntries (md : List MergedDay) (i : Nat) (d : MergedDay) :
    List VolumeSpikeAnomaly :=
  d.exchanges.filterMap fun p =>
    let avg := calculateAverageVolume md p.1 i
    if spikeFires p.2.volume avg then
      some { date := d.date, exchange := p.1, volume := p.2.volume, avgVolume := avg }
    else none

/-- Rule 4 condition for one source:
`Math.abs((currOpen - prevClose) / prevClose) * 100 > 5` with JS float
semantics made exact: false when either operand is `NaN`; when
`prevClose = 0` the quotient is `±Infinity` for `currOpen ≠ 0` (so `> 5`
holds) and `NaN` for `currOpen = 0`. -/
def gapFires (currOpen prevClose : Option ℚ) : Bool :=
  match currOpen, prevClose with
  | some o, some pc =>
      if pc = 0 then decide (o ≠ 0) else decide (5 < |(o - pc) / pc| * 100)
  | _, _ => false

/-- The `priceGaps` entries pushed for one day (only when `index > 0` and
both the previous and the current record of the source exist), in source-key
order. -/
def gapEntries (md : List MergedDay) (i : Nat) (d : MergedDay) :
    List PriceGapAnomaly :=
  if i = 0 then []
  else
    match md.get? (i - 1) with
    | none => []
    | some prevDay =>
        d.exchanges.filterMap fun p =>
          match lookupEx prevDay.exchanges p.1 with
          | none => none
          | some prevData =>
              if gapFires p.2.open_ prevData.close then
                some { date := d.date, exchange := p.1
                       gapPercent :=
                         match p.2.open_, prevData.close with
                         | some o, some pc =>
                             if pc = 0 then none else some (|(o - pc) / pc| * 100)
                         | _, _ => none
                       prevClose := prevData.close, currOpen := p.2.open_ }
              else none

/-- Value of `isValidDay` after all four rules ran for the day at index `i`: true iff
no rule pushed an anomaly entry. -/
def isValidAt (md : List MergedDay) (i : Nat) (d : MergedDay) : Bool :=
  (missEntries d).isEmpty && (devEntries d).isEmpty &&
    (spikeEntries md i d).isEmpty && (gapEntries md i d).isEmpty

/-- The `exchangeCoverage` update `if (!cov[e]) cov[e] = 0; cov[e]++`. -/
def bumpCount : List (String × Nat) → String → List (String × Nat)
  | [], e => [(e, 1)]
  | (k, n) :: rest, e =>
      if k = e then (k, n + 1) :: rest else (k, n) :: bumpCount rest e

/-- The body of `mergedData.forEach((dayData, index) => ...)` in
`validateData`: push the day's anomaly entries, bump `totalDays`, and when no
rule fired append the day to `valid`, bump `validDays` and the coverage of
every reporting source. -/
def vStep (md : List MergedDay) (acc : ValidationResults) (i : Nat)
    (d : MergedDay) : ValidationResults :=
  let ok := isValidAt md i d
  { valid := acc.valid ++ if ok then [d] else []
    anomalies :=
      { priceDiff := acc.anomalies.priceDiff ++ devEntries d
        volumeSpikes := acc.anomalies.volumeSpikes ++ spikeEntries md i d
        dataMissing := acc.anomalies.dataMissing ++ missEntries d
        priceGaps := acc.anomalies.priceGaps ++ gapEntries md i d }
    stats :=
      { totalDays := acc.stats.totalDays + 1
        validDays := acc.stats.validDays + if ok then 1 else 0
        exchangeCoverage :=
          if ok then
            d.exchanges.foldl (fun c p => bumpCount c p.1) acc.stats.exchangeCoverage
          else acc.stats.exchangeCoverage } }

/-- The empty `validationResults` object `validateData` starts from. -/
def vInit : ValidationResults :=
  { valid := []
    anomalies := { priceDiff := [], volumeSpikes := [], dataMissing := [], priceGaps := [] }
    stats := { totalDays := 0, validDays := 0, exchangeCoverage := [] } }

/-- Model of `validateData(mergedData)` from `index.js`. -/
def validateData (md : List MergedDay) : ValidationResults :=
  md.enum.foldl (fun acc p => vStep md acc p.1 p.2) vInit
/-- JS `Map.set(item.date, item)` on a date-keyed map of merged-day records:
an existing key keeps its position and gets the new value, a new key is
appended. -/
def mapSet : List MergedDay → MergedDay → List MergedDay
  | [], x => [x]
  | d :: rest, x =>
      if d.date = x.date then x :: rest else d :: mapSet rest x

/-- First (hence, on unique-keyed lists, the only) record with the given
date. -/
def dayAt : List MergedDay → Nat → Option MergedDay
  | [], _ => none
  | d :: rest, x => if d.date = x then some d else dayAt rest x

/-- Model of `mergeWithExistingData(newData)` from `index.js`, with the persisted
validated dataset made an explicit `Option` argument: `none` models the
`fs.readFile`/`JSON.parse` failure path, which returns `newData` unchanged.
Otherwise a date index is built from the existing records
(`new Map(existingData.map(item => [item.date, item]))`), every incoming
record is `set` into it (full replacement, no field-level merge), and the
values are resorted ascending by date. -/
def mergeWithExistingData (existing : Option (List MergedDay))
    (newData : List MergedDay) : List MergedDay :=
  match existing with
  | none => newData
  | some ex =>
      ((newData.foldl mapSet (ex.foldl mapSet []))).insertionSort dateLe

/-- Weekday of an epoch-day number (day 0, 1970-01-01, was a Thursday);
stands for `moment(date).format('dddd')`. -/
def dateWeekday (d : Nat) : Nat := (d + 4) % 7

/-- Civil calendar `(year, month, day)` of an epoch-day number (standard
days-from-civil inversion for the proleptic Gregorian calendar); stands for
the `moment(date).format(...)` year/month readings. -/
def dateYMD (d : Nat) : Nat × Nat × Nat :=
  let z := d + 719468
  let era := z / 146097
  let doe := z % 146097
  let yoe := (doe - doe / 1460 + doe / 36524 - doe / 146096) / 365
  let y := yoe + era * 400
  let doy := doe - (365 * yoe + yoe / 4 - yoe / 100)
  let mp := (5 * doy + 2) / 153
  let dd := doy - (153 * mp + 2) / 5 + 1
  let m := if mp < 10 then mp + 3 else mp - 9
  (if m ≤ 2 then y + 1 else y, m, dd)

/-- Year key `'YYYY'` of an epoch-day number. -/
def dateYear (d : Nat) : Nat := (dateYMD d).1

/-- Month key `'YYYY-MM'` of an epoch-day number, encoded as
`year * 100 + month`. -/
def dateMonthKey (d : Nat) : Nat := (dateYMD d).1 * 100 + (dateYMD d).2.1

/-- Generic assoc-list read for the JS counter/accumulator objects. -/
def alistGet? {κ β : Type} [DecidableEq κ] : List (κ × β) → κ → Option β
  | [], _ => none
  | (k, v) :: rest, x => if k = x then some v else alistGet? rest x

/-- Generic assoc-list write: existing key updated in place, new key
appended. -/
def alistSet {κ β : Type} [DecidableEq κ] : List (κ × β) → κ → β → List (κ × β)
  | [], x, v => [(x, v)]
  | (k, w) :: rest, x, v =>
      if k = x then (k, v) :: rest else (k, w) :: alistSet rest x v

/-- The JS idiom `if (!m[k]) m[k] = init; <mutate m[k]>`, for accumulator
objects whose initial value is never falsy after creation. -/
def alistUpd {κ β : Type} [DecidableEq κ] (m : List (κ × β)) (k : κ) (init : β)
    (f : β → β) : List (κ × β) :=
  alistSet m k (f ((alistGet? m k).getD init))

/-- Running extreme with provenance (`{value, date, exchange}`; the initial
`date: ''`/`exchange: ''` are the empty string and day `0`). -/
structure ExtremeQ where
  value : ℚ
  date : Nat
  exchange : String
deriving DecidableEq

/-- Running minimum whose initial `value` is `Infinity`, modelled as
`none`. -/
structure LowExtreme where
  value : Option ℚ
  date : Nat
  exchange : String
deriving DecidableEq

/-- Per-exchange close accumulator (`{sum, count, prices}`). -/
structure AvgAcc where
  sum : Option ℚ
  count : Nat
  prices : List (Option ℚ)
deriving DecidableEq

/-- Per-exchange volume accumulator (`{sum, count}`). -/
structure VolAcc where
  sum : Option ℚ
  count : Nat
deriving DecidableEq

/-- Per-year accumulator (`{avgPrice: {sum, count}, totalVolume, volatility}`). -/
structure YearAcc where
  avgPriceSum : Option ℚ
  avgPriceCount : Nat
  totalVolume : Option ℚ
  volatility : List (Option ℚ)
deriving DecidableEq

/-- Per-month and per-weekday accumulator (`{avgPrice: {sum, count}, totalVolume}`). -/
structure BucketAcc where
  avgPriceSum : Option ℚ
  avgPriceCount : Nat
  totalVolume : Option ℚ
deriving DecidableEq

/-- The `analysis` object built by `analyzeData`.  The post-pass
`volatility` numbers (standard deviation of `Math.log` returns times
`sqrt(252) * 100`) are transcendental reals computed from
`priceAverages[ex].prices`, which this structure retains; no claim refers to
them, so that one numeric post-pass is not replayed here.  `marketShare`
keeps the exact percentage (the code formats it as a 2-decimal string).
`volume.total` is declared by the code but never written, hence constant
`[]`. -/
structure AnalysisResult where
  priceHighest : ExtremeQ
  priceLowest : LowExtreme
  priceAverages : List (String × AvgAcc)
  volumeHighest : ExtremeQ
  volumeDaily : List (String × VolAcc)
  volumeTotal : List (String × Option ℚ)
  marketShare : List (String × Option ℚ)
  upDays : List (String × Nat)
  downDays : List (String × Nat)
  flatDays : List (String × Nat)
  maxUpStreak : List (String × Nat)
  maxDownStreak : List (String × Nat)
  byYear : List (Nat × YearAcc)
  byMonth : List (Nat × BucketAcc)
  byWeekday : List (Nat × BucketAcc)
deriving DecidableEq

/-- The empty `analysis` object `analyzeData` starts from. -/
def aInit : AnalysisResult :=
  { priceHighest := { value := 0, date := 0, exchange := "" }
    priceLowest := { value := none, date := 0, exchange := "" }
    priceAverages := []
    volumeHighest := { value := 0, date := 0, exchange := "" }
    volumeDaily := []
    volumeTotal := []
    marketShare := []
    upDays := [], downDays := [], flatDays := []
    maxUpStreak := [], maxDownStreak := []
    byYear := [], byMonth := [], byWeekday := [] }

/-- The body of the per-exchange `forEach` inside `analyzeData`'s day loop.
Two JS quirks are reproduced exactly: comparisons against a `NaN` close or
volume never update the extremes, and the trend-counter guard
`if (!trends.upDays[ex])` re-zeroes all five trend counters whenever the
exchange's up-day count is still `0` (`!0` is `true`). -/
def aStepEx (md : List MergedDay) (i : Nat) (d : MergedDay)
    (acc : AnalysisResult) (p : String × Kline) : AnalysisResult :=
  let e := p.1
  let k := p.2
  let acc :=
    match k.close with
    | some c =>
        let acc :=
          if acc.priceHighest.value < c then
            { acc with priceHighest := { value := c, date := d.date, exchange := e } }
          else acc
        match acc.priceLowest.value with
        | none =>
            { acc with priceLowest := { value := some c, date := d.date, exchange := e } }
        | some lo =>
            if c < lo then
              { acc with priceLowest := { value := some c, date := d.date, exchange := e } }
            else acc
    | none => acc
  let acc :=
    { acc with
      priceAverages :=
        alistUpd acc.priceAverages e { sum := some 0, count := 0, prices := [] }
          fun a =>
            { sum := jsAdd a.sum k.close, count := a.count + 1
              prices := a.prices ++ [k.close] } }
  let acc :=
    { acc with
      volumeDaily :=
        alistUpd acc.volumeDaily e { sum := some 0, count := 0 } fun a =>
          { sum := jsAdd a.sum k.volume, count := a.count + 1 } }
  let acc :=
    match k.volume with
    | some v =>
        if acc.volumeHighest.value < v then
          { acc with volumeHighest := { value := v, date := d.date, exchange := e } }
        else acc
    | none => acc
  let acc :=
    if ((alistGet? acc.upDays e).getD 0) = 0 then
      { acc with
        upDays := alistSet acc.upDays e 0, downDays := alistSet acc.downDays e 0
        flatDays := alistSet acc.flatDays e 0
        maxUpStreak := alistSet acc.maxUpStreak e 0
        maxDownStreak := alistSet acc.maxDownStreak e 0 }
    else acc
  let acc :=
    if i = 0 then acc
    else
      match (md.get? (i - 1)).bind fun prev => lookupEx prev.exchanges e with
      | none => acc
      | some prevDay =>
          match jsSub k.close prevDay.close with
          | some ch =>
              if 0 < ch then
                { acc with upDays := alistUpd acc.upDays e 0 (· + 1) }
              else if ch < 0 then
                { acc with downDays := alistUpd acc.downDays e 0 (· + 1) }
              else { acc with flatDays := alistUpd acc.flatDays e 0 (· + 1) }
          | none => { acc with flatDays := alistUpd acc.flatDays e 0 (· + 1) }
  let acc :=
    { acc with
      byYear :=
        alistUpd acc.byYear (dateYear d.date)
          { avgPriceSum := some 0, avgPriceCount := 0, totalVolume := some 0
            volatility := [] }
          fun a =>
            { avgPriceSum := jsAdd a.avgPriceSum k.close
              avgPriceCount := a.avgPriceCount + 1
              totalVolume := jsAdd a.totalVolume k.volume
              volatility := a.volatility ++ [k.close] } }
  let acc :=
    { acc with
      byMonth :=
        alistUpd acc.byMonth (dateMonthKey d.date)
          { avgPriceSum := some 0, avgPriceCount := 0, totalVolume := some 0 }
          fun a =>
            { avgPriceSum := jsAdd a.avgPriceSum k.close
              avgPriceCount := a.avgPriceCount + 1
              totalVolume := jsAdd a.totalVolume k.volume } }
  { acc with
    byWeekday :=
      alistUpd acc.byWeekday (dateWeekday d.date)
        { avgPriceSum := some 0, avgPriceCount := 0, totalVolume := some 0 }
        fun a =>
          { avgPriceSum := jsAdd a.avgPriceSum k.close
            avgPriceCount := a.avgPriceCount + 1
            totalVolume := jsAdd a.totalVolume k.volume } }

/-- Model of `analyzeData(mergedData)` from `index.js`: the single forward pass over
the days (and, per day, over the reporting sources in key order), followed by
the market-share post-pass
(`marketShare[ex] = daily[ex].sum / totalVolume * 100`; `none` abstracts the
non-finite result of a zero or `NaN` total). -/
def analyzeData (md : List MergedDay) : AnalysisResult :=
  let acc :=
    md.enum.foldl (fun acc p => p.2.exchanges.foldl (aStepEx md p.1 p.2) acc) aInit
  let totalVolume := acc.volumeDaily.foldl (fun s p => jsAdd s p.2.sum) (some 0)
  { acc with
    marketShare :=
      acc.volumeDaily.map fun p =>
        (p.1,
          match p.2.sum, totalVolume with
          | some s, some t => if t = 0 then none else some (s / t * 100)
          | _, _ => none) }
/-- The only tuple slot `PriceFetcher.fetchAllData` consumes from a raw
Binance candle: `data[i][6]`, the close timestamp (here already reduced to a
day-granularity `Nat` clock; only its order and the `+ 1` step matter). -/
structure RawKline where
  closeTime : Nat
deriving DecidableEq

/-- Outcome of one `fetchKlines` call inside `fetchAllData`: a page of
records, or a thrown error (network failure, after `makeRequest` exhausted
its own retries). -/
inductive FetchStep where
  | page (data : List RawKline)
  | fail
deriving DecidableEq

/-- Constant `MAX_FAILURES` from `PriceFetcher.fetchAllData` (and the identical
constant in `OKXExchange.fetchKlines`). -/
def MAX_FAILURES : Nat := 10

namespace PriceFetcher

/-- The `while (currentStartTime < endTime)` loop of
`PriceFetcher.fetchAllData`, with the network abstracted into `env` (the
outcome of the `step`-th `fetchKlines` call) and an explicit `fuel` bound on
the number of iterations modelled (`none` = the run needs more iterations
than `fuel`; the JS loop has no such bound).  On a page: append, advance the
cursor past the last record's close time, reset the failure counter.  On an
empty page: break.  On a failure: count it and break with the accumulated
records once `MAX_FAILURES` consecutive failures are reached, else rotate the
endpoint (absorbed into `env`) and retry. -/
def fetchAllDataGo (env : Nat → FetchStep) (endTime : Nat) :
    Nat → Nat → Nat → Nat → List RawKline → Option (List RawKline)
  | 0, _, _, _, _ => none
  | fuel + 1, step, curTime, failCount, acc =>
      if curTime < endTime then
        match env step with
        | .page [] => some acc
        | .page (k :: ks) =>
            fetchAllDataGo env endTime fuel (step + 1)
              (((k :: ks).getLast?.getD k).closeTime + 1) 0 (acc ++ (k :: ks))
        | .fail =>
            if MAX_FAILURES ≤ failCount + 1 then some acc
            else fetchAllDataGo env endTime fuel (step + 1) curTime
              (failCount + 1) acc
      else some acc

/-- Model of `PriceFetcher.fetchAllData(startTime, endTime)`. -/
def fetchAllData (env : Nat → FetchStep) (fuel startTime endTime : Nat) :
    Option (List RawKline) :=
  fetchAllDataGo env endTime fuel 0 startTime 0 []

end PriceFetcher
/-- Environment outcome of one iteration of a `makeRequest` retry loop: the
DNS probe of the current endpoint fails, or the probe succeeds and the HTTP
request then succeeds or fails. -/
inductive ReqStep where
  | dnsFail
  | reqOk
  | reqFail
deriving DecidableEq

/-- How a `makeRequest` run ends: returned data, threw, or (PriceFetcher
only) fell off the `for` loop with no return value (`undefined`). -/
inductive ReqOutcome where
  | success
  | threw
  | fellOff
deriving DecidableEq

/-- Counters observed over one `makeRequest` run: iterations that started
(each begins with a DNS probe, so `probes` is also the number of loop
iterations, i.e. of consumed `attempt` values), HTTP requests actually
issued, failed DNS probes, failed requests, and endpoint rotations
(`switchEndpoint()` calls). -/
structure ReqTrace where
  outcome : ReqOutcome
  probes : Nat
  requests : Nat
  dnsFails : Nat
  reqFails : Nat
  rotations : Nat
deriving DecidableEq

namespace PriceFetcher

/-- The `for (attempt = 0; attempt < MAX_RETRIES; attempt++)` loop of
`PriceFetcher.makeRequest`, structurally recursing on the remaining
attempts (`fuel = MAX_RETRIES - attempt`, so `fuel = 0` inside an iteration
means `attempt === MAX_RETRIES - 1`).  A failed DNS probe rotates the
endpoint and `continue`s — which still advances `attempt`.  A failed request
on the last attempt throws; earlier ones rotate and retry.  Falling off the
loop returns `undefined`. -/
def makeRequestGo (env : Nat → ReqStep) : Nat → Nat → ReqTrace
  | 0, _ =>
      { outcome := .fellOff, probes := 0, requests := 0, dnsFails := 0
        reqFails := 0, rotations := 0 }
  | fuel + 1, attempt =>
      match env attempt with
      | .dnsFail =>
          let r := makeRequestGo env fuel (attempt + 1)
          { r with probes := r.probes + 1, dnsFails := r.dnsFails + 1
                   rotations := r.rotations + 1 }
      | .reqOk =>
          { outcome := .success, probes := 1, requests := 1, dnsFails := 0
            reqFails := 0, rotations := 0 }
      | .reqFail =>
          if fuel = 0 then
            { outcome := .threw, probes := 1, requests := 1, dnsFails := 0
              reqFails := 1, rotations := 0 }
          else
            let r := makeRequestGo env fuel (attempt + 1)
            { r with probes := r.probes + 1, requests := r.requests + 1
                     reqFails := r.reqFails + 1, rotations := r.rotations + 1 }

/-- Model of `PriceFetcher.makeRequest` with `config.MAX_RETRIES = maxRetries`. -/
def makeRequest (env : Nat → ReqStep) (maxRetries : Nat) : ReqTrace :=
  makeRequestGo env maxRetries 0

end PriceFetcher

namespace BaseExchange

/-- The `for (i = 0; i < maxRetries; i++)` loop of
`BaseExchange.makeRequest`.  A failed DNS probe throws
`'DNS lookup failed'`, which the surrounding `try` catches like any request
failure: it backs off and consumes the attempt, and `BaseExchange` performs
no endpoint rotation at all.  After the last failure the loop exits and
`lastError` is rethrown. -/
def makeRequestGo (env : Nat → ReqStep) : Nat → Nat → ReqTrace
  | 0, _ =>
      { outcome := .threw, probes := 0, requests := 0, dnsFails := 0
        reqFails := 0, rotations := 0 }
  | fuel + 1, i =>
      match env i with
      | .dnsFail =>
          let r := makeRequestGo env fuel (i + 1)
          { r with probes := r.probes + 1, dnsFails := r.dnsFails + 1 }
      | .reqOk =>
          { outcome := .success, probes := 1, requests := 1, dnsFails := 0
            reqFails := 0, rotations := 0 }
      | .reqFail =>
          let r := makeRequestGo env fuel (i + 1)
          { r with probes := r.probes + 1, requests := r.requests + 1
                   reqFails := r.reqFails + 1 }

/-- Model of `BaseExchange.makeRequest` with its default `maxRetries = 3`. -/
def makeRequest (env : Nat → ReqStep) (maxRetries : Nat := 3) : ReqTrace :=
  makeRequestGo env maxRetries 0

end BaseExchange

/-- One raw OKX candle as consumed by `OKXExchange.formatData`:
`item[0]` is the candle timestamp in milliseconds, the remaining consumed
slots are `parseFloat`ed strings (`none` = unparseable, i.e. `NaN`). -/
structure OkxRaw where
  ts : Nat
  open_ : Option ℚ
  high : Option ℚ
  low : Option ℚ
  close : Option ℚ
  volume : Option ℚ
  quoteVolume : Option ℚ
deriving DecidableEq

/-- Outcome of one iteration of the `OKXExchange.fetchKlines` loop: a page
of raw candles from `makeRequest`, or a thrown error. -/
inductive OkxStep where
  | page (data : List OkxRaw)
  | fail
deriving DecidableEq

namespace OKXExchange

/-- Model of `OKXExchange.formatData(data)`: normalize raw candles into kline
records (`moment(parseInt(item[0])).format('YYYY-MM-DD')` becomes the epoch
day number `ts / 86400000`). -/
def formatData (data : List OkxRaw) : List Kline :=
  data.map fun r =>
    { date := r.ts / 86400000, open_ := r.open_, high := r.high, low := r.low
      close := r.close, volume := r.volume, quoteVolume := r.quoteVolume }

/-- The `while (currentStartTime < endTime)` loop of
`OKXExchange.fetchKlines`, with the proxy/endpoint rotation and the network
absorbed into `env` and an explicit iteration budget `fuel` (`none` = the
run needs more iterations than modelled).  Identical in shape to
`PriceFetcher.fetchAllData` except that reaching `MAX_FAILURES` consecutive
failures throws `'Too many consecutive failures'` instead of returning the
accumulated records, and the cursor advances past `item[0]` of the last
record. -/
def fetchKlinesGo (env : Nat → OkxStep) (endTime : Nat) :
    Nat → Nat → Nat → Nat → List OkxRaw → Option (Except String (List OkxRaw))
  | 0, _, _, _, _ => none
  | fuel + 1, step, curTime, failCount, acc =>
      if curTime < endTime then
        match env step with
        | .page [] => some (.ok acc)
        | .page (k :: ks) =>
            fetchKlinesGo env endTime fuel (step + 1)
              (((k :: ks).getLast?.getD k).ts + 1) 0 (acc ++ (k :: ks))
        | .fail =>
            if MAX_FAILURES ≤ failCount + 1 then
              some (.error "Too many consecutive failures")
            else fetchKlinesGo env endTime fuel (step + 1) curTime (failCount + 1) acc
      else some (.ok acc)

/-- Model of `OKXExchange.fetchKlines(startTime, endTime)`: run the paging loop and
`formatData` the accumulated raw candles on the normal return path. -/
def fetchKlines (env : Nat → OkxStep) (fuel startTime endTime : Nat) :
    Option (Except String (List Kline)) :=
  (fetchKlinesGo env endTime fuel 0 startTime 0 []).map fun r => r.map formatData

end OKXExchange
/-- Invocation mode (`--mode full | increment`). -/
inductive Mode where
  | full
  | increment
deriving DecidableEq

/-- The three whole-document files `main` writes when it persists:
`btc_price_validated.json`, `btc_price_anomalies.json`,
`btc_price_analysis.json`. -/
structure PersistedArtifacts where
  validated : List MergedDay
  anomalies : Anomalies
  analysis : AnalysisResult
deriving DecidableEq

/-- What a `main` run leaves behind: the persisted files (`none` = nothing
was written, the prior persisted state is untouched) and the process exit
code. -/
structure MainOutcome where
  persisted : Option PersistedArtifacts
  exitCode : Nat
deriving DecidableEq

/-- Model of `main()` from `index.js`, from the point where the per-exchange fetches
have settled.  Each element of `results` is the outcome of one
`fetchExchangeData(...).catch(error => null)`: `none` is a fetch whose
exception was caught and converted to `null`.  `main` filters the `null`s
out; if nothing is left it skips the whole persistence block and returns
normally (exit code `0` — `process.exit(1)` runs only in the `catch` of
`main`, which a failed fetch never reaches).  Otherwise it merges,
validates, analyzes the *merged* data, in increment mode reconciles
`validation.valid` with the persisted dataset, and writes the three
files. -/
def mainRun (mode : Mode) (existing : Option (List MergedDay))
    (results : List (Option ExchResult)) : MainOutcome :=
  let validResults := results.filterMap id
  if validResults.isEmpty then { persisted := none, exitCode := 0 }
  else
    let mergedData := mergeExchangeData validResults
    let validation := validateData mergedData
    let analysis := analyzeData mergedData
    let finalValid :=
      match mode with
      | .increment => mergeWithExistingData existing validation.valid
      | .full => validation.valid
    { persisted :=
        some { validated := finalValid, anomalies := validation.anomalies
               analysis := analysis }
      exitCode := 0 }
/-! ### Helper lemmas about the validator fold -/

/-- Read a counter object, `0` when the key is absent. -/
def covGet (cov : List (String × Nat)) (s : String) : Nat :=
  (alistGet? cov s).getD 0

theorem covGet_bumpCount (cov : List (String × Nat)) (e s : String) :
    covGet (bumpCount cov e) s = covGet cov s + if e = s then 1 else 0 := by
  induction cov with
  | nil =>
      by_cases h : e = s <;> simp [bumpCount, covGet, alistGet?, h]
  | cons q rest ih =>
      obtain ⟨k, n⟩ := q
      by_cases hk : k = e
      · subst hk
        by_cases hs : k = s <;> simp [bumpCount, covGet, alistGet?, hs]
      · by_cases hs : k = s
        · subst hs
          have hes : ¬ e = k := fun h => hk h.symm
          simp [bumpCount, covGet, alistGet?, hk, hes]
        · simpa [bumpCount, covGet, alistGet?, hk, hs] using ih

theorem covGet_foldl_bump (exs : List (String × Kline)) (cov : List (String × Nat))
    (s : String) :
    covGet (exs.foldl (fun c p => bumpCount c p.1) cov) s
      = covGet cov s + exs.countP (fun p => p.1 = s) := by
  induction exs generalizing cov with
  | nil => simp [List.countP_nil]
  | cons q rest ih =>
      rw [List.foldl_cons, ih, covGet_bumpCount, List.countP_cons]
      by_cases h : q.1 = s <;> simp [h] <;> omega

theorem countP_key_of_nodup (ex : List (String × Kline)) (s : String)
    (h : (ex.map Prod.fst).Nodup) :
    ex.countP (fun p => p.1 = s) = if (lookupEx ex s).isSome then 1 else 0 := by
  induction ex with
  | nil => simp [List.countP_nil, lookupEx]
  | cons q rest ih =>
      obtain ⟨k, v⟩ := q
      simp only [List.map_cons, List.nodup_cons] at h
      by_cases hk : k = s
      · subst hk
        have h0 : rest.countP (fun p => p.1 = k) = 0 := by
          rw [List.countP_eq_zero]
          intro p hp
          simp only [decide_eq_true_eq]
          intro hps
          exact h.1 (by simpa [hps] using List.mem_map_of_mem Prod.fst hp)
        simp [List.countP_cons, lookupEx, h0]
      · simp [List.countP_cons, lookupEx, hk, ih h.2]

theorem sum_ite_eq_countP {α : Type} (L : List α) (P : α → Bool) :
    (L.map fun d => if P d then 1 else 0).sum = L.countP P := by
  induction L with
  | nil => simp [List.countP_nil]
  | cons x t ih =>
      by_cases h : P x <;> simp [List.countP_cons, h, ih] <;> omega

theorem snd_mem_of_mem_enumFrom {α : Type} (l : List α) (n : Nat)
    (p : Nat × α) (h : p ∈ l.enumFrom n) : p.2 ∈ l := by
  induction l generalizing n with
  | nil => simp [List.enumFrom] at h
  | cons x t ih =>
      simp only [List.enumFrom, List.mem_cons] at h
      rcases h with h | h
      · simp [h]
      · exact List.mem_cons_of_mem x (ih (n + 1) h)

theorem vfold_valid (md : List MergedDay) (l : List (Nat × MergedDay))
    (acc : ValidationResults) :
    (l.foldl (fun a p => vStep md a p.1 p.2) acc).valid
      = acc.valid ++ (l.filter fun p => isValidAt md p.1 p.2).map Prod.snd := by
  induction l generalizing acc with
  | nil => simp
  | cons q t ih =>
      rw [List.foldl_cons, ih, List.filter_cons]
      by_cases h : isValidAt md q.1 q.2 <;> simp [vStep, h]

theorem vfold_missing (md : List MergedDay) (l : List (Nat × MergedDay))
    (acc : ValidationResults) :
    (l.foldl (fun a p => vStep md a p.1 p.2) acc).anomalies.dataMissing
      = acc.anomalies.dataMissing ++ l.flatMap fun p => missEntries p.2 := by
  induction l generalizing acc with
  | nil => simp
  | cons q t ih => rw [List.foldl_cons, ih]; simp [vStep]

theorem vfold_priceDiff (md : List MergedDay) (l : List (Nat × MergedDay))
    (acc : ValidationResults) :
    (l.foldl (fun a p => vStep md a p.1 p.2) acc).anomalies.priceDiff
      = acc.anomalies.priceDiff ++ l.flatMap fun p => devEntries p.2 := by
  induction l generalizing acc with
  | nil => simp
  | cons q t ih => rw [List.foldl_cons, ih]; simp [vStep]

theorem vfold_spikes (md : List MergedDay) (l : List (Nat × MergedDay))
    (acc : ValidationResults) :
    (l.foldl (fun a p => vStep md a p.1 p.2) acc).anomalies.volumeSpikes
      = acc.anomalies.volumeSpikes ++ l.flatMap fun p => spikeEntries md p.1 p.2 := by
  induction l generalizing acc with
  | nil => simp
  | cons q t ih => rw [List.foldl_cons, ih]; simp [vStep]

theorem vfold_gaps (md : List MergedDay) (l : List (Nat × MergedDay))
    (acc : ValidationResults) :
    (l.foldl (fun a p => vStep md a p.1 p.2) acc).anomalies.priceGaps
      = acc.anomalies.priceGaps ++ l.flatMap fun p => gapEntries md p.1 p.2 := by
  induction l generalizing acc with
  | nil => simp
  | cons q t ih => rw [List.foldl_cons, ih]; simp [vStep]

theorem vfold_totalDays (md : List MergedDay) (l : List (Nat × MergedDay))
    (acc : ValidationResults) :
    (l.foldl (fun a p => vStep md a p.1 p.2) acc).stats.totalDays
      = acc.stats.totalDays + l.length := by
  induction l generalizing acc with
  | nil => simp
  | cons q t ih => rw [List.foldl_cons, ih]; simp [vStep]; omega

theorem vfold_validDays (md : List MergedDay) (l : List (Nat × MergedDay))
    (acc : ValidationResults) :
    (l.foldl (fun a p => vStep md a p.1 p.2) acc).stats.validDays
      = acc.stats.validDays + (l.filter fun p => isValidAt md p.1 p.2).length := by
  induction l generalizing acc with
  | nil => simp
  | cons q t ih =>
      rw [List.foldl_cons, ih, List.filter_cons]
      by_cases h : isValidAt md q.1 q.2 <;> simp [vStep, h] <;> omega

theorem vfold_coverage (md : List MergedDay) (l : List (Nat × MergedDay))
    (acc : ValidationResults) (s : String) :
    covGet (l.foldl (fun a p => vStep md a p.1 p.2) acc).stats.exchangeCoverage s
      = covGet acc.stats.exchangeCoverage s
        + (((l.filter fun p => isValidAt md p.1 p.2).map Prod.snd).map fun d =>
            d.exchanges.countP fun p => p.1 = s).sum := by
  induction l generalizing acc with
  | nil => simp
  | cons q t ih =>
      rw [List.foldl_cons, ih, List.filter_cons]
      by_cases h : isValidAt md q.1 q.2
      · simp [vStep, h, covGet_foldl_bump]; omega
      · simp [vStep, h]
theorem filter_flatMap_date {A : Type} (dateOf : A → Nat)
    (l : List (Nat × MergedDay)) (f : Nat × MergedDay → List A)
    (q : Nat × MergedDay) (hq : q ∈ l)
    (hnd : (l.map fun p => p.2.date).Nodup)
    (hf : ∀ p ∈ l, ∀ a ∈ f p, dateOf a = p.2.date) :
    (l.flatMap f).filter (fun a => dateOf a = q.2.date) = f q := by
  induction l with
  | nil => cases hq
  | cons r t ih =>
      simp only [List.map_cons, List.nodup_cons, List.mem_map] at hnd
      rw [List.flatMap_cons, List.filter_append]
      rcases List.mem_cons.mp hq with hq | hq
      · subst hq
        have h1 : (f q).filter (fun a => dateOf a = q.2.date) = f q := by
          rw [List.filter_eq_self]
          intro a ha
          simp [hf q (List.mem_cons_self q t) a ha]
        have h2 : (t.flatMap f).filter (fun a => dateOf a = q.2.date) = [] := by
          rw [List.filter_eq_nil]
          intro a ha
          obtain ⟨p, hp, hap⟩ := List.mem_flatMap.mp ha
          have := hf p (List.mem_cons_of_mem q hp) a hap
          simp only [this, decide_eq_true_eq]
          intro hcon
          exact hnd.1 ⟨p, hp, hcon⟩
        rw [h1, h2, List.append_nil]
      · have h1 : (f r).filter (fun a => dateOf a = q.2.date) = [] := by
          rw [List.filter_eq_nil]
          intro a ha
          have := hf r (List.mem_cons_self r t) a ha
          simp only [this, decide_eq_true_eq]
          intro hcon
          exact hnd.1 ⟨q, hq, hcon.symm⟩
        rw [h1, List.nil_append]
        exact ih hq hnd.2 fun p hp => hf p (List.mem_cons_of_mem r hp)

theorem enum_dates_nodup (md : List MergedDay) (h : (md.map fun d => d.date).Nodup) :
    (md.enum.map fun p => p.2.date).Nodup := by
  have : (md.enum.map fun p => p.2.date) = md.map fun d => d.date := by
    have h2 := List.enum_map_snd md
    calc (md.enum.map fun p => p.2.date)
        = (md.enum.map Prod.snd).map (fun d => d.date) := by
          rw [List.map_map]; rfl
      _ = md.map fun d => d.date := by rw [h2]
  rw [this]; exact h

theorem mem_enum_self (md : List MergedDay) (i : Nat) (hi : i < md.length) :
    (i, md.get ⟨i, hi⟩) ∈ md.enum := by
  have h : md.enum.get ⟨i, by simpa using hi⟩ = (i, md.get ⟨i, hi⟩) := by
    simp [List.get_enum]
  rw [← h]
  exact List.get_mem _ _ _

/-- C2.  For every merged input sequence, the validator includes a day in
`valid` exactly when none of the four rules fired for it (`isValidAt` is
definitionally "no rule pushed an anomaly entry for the day"),
`stats.validDays` equals the length of `valid`, and (for well-formed days,
whose `exchanges` object has unique keys, as every JS object does)
`exchangeCoverage` maps each source to the number of valid days whose record
contains that source. -/
theorem validateData_valid_stats (md : List MergedDay)
    (hkeys : ∀ d ∈ md, (d.exchanges.map Prod.fst).Nodup) :
    (validateData md).valid
        = (md.enum.filter fun p => isValidAt md p.1 p.2).map Prod.snd
      ∧ (validateData md).stats.validDays = (validateData md).valid.length
      ∧ ∀ s, covGet (validateData md).stats.exchangeCoverage s
          = (validateData md).valid.countP fun d => (lookupEx d.exchanges s).isSome := by
  have hvalid := vfold_valid md md.enum vInit
  have hdays := vfold_validDays md md.enum vInit
  refine ⟨by simpa [validateData, vInit] using hvalid, ?_, ?_⟩
  · rw [validateData] at *
    rw [hvalid, hdays]
    simp [vInit]
  · intro s
    have hcov := vfold_coverage md md.enum vInit s
    rw [validateData] at *
    rw [hvalid, hcov]
    have hmem : ∀ d ∈ (md.enum.filter fun p => isValidAt md p.1 p.2).map Prod.snd,
        d ∈ md := by
      intro d hd
      obtain ⟨p, hp, hpd⟩ := List.mem_map.mp hd
      have := snd_mem_of_mem_enumFrom md 0 p (by simpa [List.enum] using List.mem_of_mem_filter hp)
      simpa [hpd] using this
    have hmap : ((md.enum.filter fun p => isValidAt md p.1 p.2).map Prod.snd).map
          (fun d => d.exchanges.countP fun p => p.1 = s)
        = ((md.enum.filter fun p => isValidAt md p.1 p.2).map Prod.snd).map
          (fun d => if (lookupEx d.exchanges s).isSome then 1 else 0) := by
      apply List.map_congr_left
      intro d hd
      exact countP_key_of_nodup d.exchanges s (hkeys d (hmem d hd))
    rw [hmap, sum_ite_eq_countP]
    simp [vInit, covGet, alistGet?]
/-- A fully numeric kline (close `1`, volume `0` so that the
first-appearance volume-spike rule cannot fire). -/
def kOk : Kline :=
  { date := 0, open_ := some 1, high := some 1, low := some 1, close := some 1
    volume := some 0 }

/-- A kline whose `close` is `NaN` (a `parseFloat` failure). -/
def kNaN : Kline :=
  { date := 1, open_ := some 1, high := some 1, low := some 1, close := none
    volume := some 0 }

/-- Two-day merged sample: day 0 is clean, day 1 has a `NaN` close. -/
def mdC2 : List MergedDay :=
  [⟨0, [("Binance", kOk)]⟩, ⟨1, [("Binance", kNaN)]⟩]

theorem validateData_valid_stats_witness :
    (∀ d ∈ mdC2, (d.exchanges.map Prod.fst).Nodup)
      ∧ ((validateData mdC2).valid
            = (mdC2.enum.filter fun p => isValidAt mdC2 p.1 p.2).map Prod.snd
          ∧ (validateData mdC2).stats.validDays = (validateData mdC2).valid.length
          ∧ ∀ s, covGet (validateData mdC2).stats.exchangeCoverage s
              = (validateData mdC2).valid.countP fun d =>
                  (lookupEx d.exchanges s).isSome) :=
  ⟨by decide, validateData_valid_stats mdC2 (by decide)⟩

/-- C9.  On every merged input, `validateData` is a total function (the
embedding terminates by construction, mirroring the exception-free JS loop),
and for every day (of an input without duplicate dates, as the merger
guarantees) on which some source's OHLCV field is absent or non-numeric, the
`dataMissing` list holds exactly one entry carrying that day's date. -/
theorem validateData_missing_exactly_one (md : List MergedDay)
    (hnd : (md.map fun d => d.date).Nodup)
    (i : Nat) (hi : i < md.length)
    (hfail : ∃ p ∈ (md.get ⟨i, hi⟩).exchanges,
        p.2.open_ = none ∨ p.2.high = none ∨ p.2.low = none ∨ p.2.close = none ∨
          p.2.volume = none) :
    ((validateData md).anomalies.dataMissing.filter
        (fun a => a.date = (md.get ⟨i, hi⟩).date)).length = 1 := by
  have hmaster := vfold_missing md md.enum vInit
  have hform : (validateData md).anomalies.dataMissing
      = md.enum.flatMap fun p => missEntries p.2 := by
    rw [validateData] at *
    rw [hmaster]
    simp [vInit]
  have hcomp : dataCompleteness (md.get ⟨i, hi⟩) = false := by
    rw [dataCompleteness, List.all_eq_false]
    obtain ⟨p, hp, hc⟩ := hfail
    refine ⟨p, hp, ?_⟩
    rcases hc with h | h | h | h | h <;> simp [h]
  have hfilter := filter_flatMap_date MissingAnomaly.date md.enum
      (fun p => missEntries p.2) (i, md.get ⟨i, hi⟩)
      (mem_enum_self md i hi) (enum_dates_nodup md hnd) ?_
  · rw [hform]
    have hfilter2 : ((md.enum.flatMap fun p => missEntries p.2).filter
          (fun a => a.date = (md.get ⟨i, hi⟩).date))
        = missEntries (md.get ⟨i, hi⟩) := hfilter
    rw [hfilter2]
    have hcomp2 : dataCompleteness md[i] = false := hcomp
    simp [missEntries, hcomp2]
  · intro p hp a ha
    by_cases h : dataCompleteness p.2 <;> simp [missEntries, h] at ha
    simp [ha]

theorem validateData_missing_exactly_one_witness :
    ((mdC2.map fun d => d.date).Nodup ∧ 1 < mdC2.length
        ∧ ∃ p ∈ (⟨1, [("Binance", kNaN)]⟩ : MergedDay).exchanges,
            p.2.open_ = none ∨ p.2.high = none ∨ p.2.low = none ∨
              p.2.close = none ∨ p.2.volume = none)
      ∧ ((validateData mdC2).anomalies.dataMissing.filter
          (fun a => a.date = 1)).length = 1 := by
  refine ⟨by decide, ?_⟩
  have h := validateData_missing_exactly_one mdC2 (by decide) 1 (by decide)
    (by decide)
  simpa [mdC2] using h
theorem allSomes_eq {l : List (Option ℚ)} {l' : List ℚ}
    (h : allSomes l = some l') : l = l'.map some := by
  induction l generalizing l' with
  | nil => simp [allSomes] at h; simp [← h]
  | cons x t ih =>
      match x with
      | none => simp [allSomes] at h
      | some q =>
          simp only [allSomes, Option.map_eq_some'] at h
          obtain ⟨t', ht', rfl⟩ := h
          simp [ih ht']

theorem foldl_max_const {c : ℚ} : ∀ (xs : List ℚ) (x : ℚ),
    (∀ y ∈ xs, y = c) → x = c → xs.foldl max x = c
  | [], x, _, hx => hx
  | y :: t, x, hall, hx => by
      rw [List.foldl_cons]
      refine foldl_max_const t (max x y) (fun z hz => hall z (List.mem_cons_of_mem y hz)) ?_
      rw [hx, hall y (List.mem_cons_self y t), max_self]

theorem foldl_min_const {c : ℚ} : ∀ (xs : List ℚ) (x : ℚ),
    (∀ y ∈ xs, y = c) → x = c → xs.foldl min x = c
  | [], x, _, hx => hx
  | y :: t, x, hall, hx => by
      rw [List.foldl_cons]
      refine foldl_min_const t (min x y) (fun z hz => hall z (List.mem_cons_of_mem y hz)) ?_
      rw [hx, hall y (List.mem_cons_self y t), min_self]

theorem exists_mem_date_iff {A : Type} (dateOf : A → Nat) (L : List A) (D : Nat) :
    (∃ a ∈ L, dateOf a = D) ↔ L.filter (fun a => dateOf a = D) ≠ [] := by
  constructor
  · rintro ⟨a, ha, hd⟩ hnil
    have hmem : a ∈ L.filter (fun a => dateOf a = D) :=
      List.mem_filter.mpr ⟨ha, by simp [hd]⟩
    rw [hnil] at hmem
    cases hmem
  · intro h
    obtain ⟨a, ha⟩ := List.exists_mem_of_ne_nil _ h
    obtain ⟨ha1, ha2⟩ := List.mem_filter.mp ha
    exact ⟨a, ha1, by simpa using ha2⟩

/-- C6.  For a day (of a duplicate-free merged sequence) on which at least
two sources report and every close parsed to a number: provided the mean
close is nonzero (so the spec's formula denotes a rational), a
`PriceDeviation` (`priceDiff`) anomaly carrying the day's date is produced
if and only if `(max(close) - min(close)) / mean(close) * 100 > 1`; and when
all reporting sources share one close price, no such anomaly is ever
produced (with no side conditions at all). -/
theorem validateData_priceDeviation_iff (md : List MergedDay)
    (hnd : (md.map fun d => d.date).Nodup) (i : Nat) (hi : i < md.length) :
    (∀ ps : List ℚ, allSomes (closesOf (md.get ⟨i, hi⟩)) = some ps →
        2 ≤ (md.get ⟨i, hi⟩).exchanges.length →
        qSum ps / (ps.length : ℚ) ≠ 0 →
        ((∃ a ∈ (validateData md).anomalies.priceDiff,
              a.date = (md.get ⟨i, hi⟩).date)
          ↔ 1 < (qMax ps - qMin ps) / (qSum ps / (ps.length : ℚ)) * 100))
      ∧ ∀ c : ℚ, (∀ p ∈ (md.get ⟨i, hi⟩).exchanges, p.2.close = some c) →
          ¬ ∃ a ∈ (validateData md).anomalies.priceDiff,
              a.date = (md.get ⟨i, hi⟩).date := by
  have hform : (validateData md).anomalies.priceDiff
      = md.enum.flatMap fun p => devEntries p.2 := by
    have h := vfold_priceDiff md md.enum vInit
    rw [validateData] at *
    rw [h]
    simp [vInit]
  have hdates : ∀ p : Nat × MergedDay, ∀ a ∈ devEntries p.2, a.date = p.2.date := by
    intro p a ha
    rw [devEntries] at ha
    by_cases h : (1 < p.2.exchanges.length && deviationFires (closesOf p.2)) = true
    · rw [if_pos h] at ha
      simp only [List.mem_singleton] at ha
      simp [ha]
    · rw [if_neg h] at ha
      cases ha
  have hfilter := filter_flatMap_date PriceDiffAnomaly.date md.enum
      (fun p => devEntries p.2) (i, md.get ⟨i, hi⟩)
      (mem_enum_self md i hi) (enum_dates_nodup md hnd)
      (fun p _ => hdates p)
  have hkey : (∃ a ∈ (validateData md).anomalies.priceDiff,
        a.date = (md.get ⟨i, hi⟩).date)
      ↔ devEntries (md.get ⟨i, hi⟩) ≠ [] := by
    rw [hform, exists_mem_date_iff PriceDiffAnomaly.date]
    have hfilter2 : ((md.enum.flatMap fun p => devEntries p.2).filter
          (fun a => a.date = (md.get ⟨i, hi⟩).date))
        = devEntries (md.get ⟨i, hi⟩) := hfilter
    rw [hfilter2]
  constructor
  · intro ps hps hlen havg
    rw [hkey]
    have hlen' : 1 < (md.get ⟨i, hi⟩).exchanges.length := hlen
    have hfires : deviationFires (closesOf (md.get ⟨i, hi⟩))
        = decide (1 < (qMax ps - qMin ps) / (qSum ps / (ps.length : ℚ)) * 100) := by
      rw [deviationFires, hps]
      show (if qSum ps / (ps.length : ℚ) = 0 then decide (0 < qMax ps - qMin ps)
            else decide (1 < (qMax ps - qMin ps) / (qSum ps / (ps.length : ℚ)) * 100))
          = _
      rw [if_neg havg]
    constructor
    · intro hne
      rw [devEntries] at hne
      by_cases h : (1 < (md.get ⟨i, hi⟩).exchanges.length
          && deviationFires (closesOf (md.get ⟨i, hi⟩))) = true
      · have := (Bool.and_eq_true _ _).mp h
        rw [hfires] at this
        simpa using this.2
      · rw [if_neg h] at hne
        exact absurd rfl hne
    · intro hgt
      rw [devEntries, if_pos]
      · simp
      · rw [Bool.and_eq_true, hfires]
        exact ⟨by simpa using hlen', by simpa using hgt⟩
  · intro c hc
    rw [hkey, not_not]
    rw [devEntries]
    have hfires : deviationFires (closesOf (md.get ⟨i, hi⟩)) = false := by
      rw [deviationFires]
      match hs : allSomes (closesOf (md.get ⟨i, hi⟩)) with
      | none => rfl
      | some ps =>
          have hmem : ∀ x ∈ ps, x = c := by
            intro x hx
            have hsome : some x ∈ closesOf (md.get ⟨i, hi⟩) := by
              rw [allSomes_eq hs]
              exact List.mem_map_of_mem some hx
            obtain ⟨p, hp, hpc⟩ := List.mem_map.mp hsome
            have := hc p hp
            rw [this] at hpc
            exact (Option.some_inj.mp hpc).symm
          have hdiff : qMax ps - qMin ps = 0 := by
            match ps, hmem with
            | [], _ => simp [qMax, qMin]
            | x :: t, hmem =>
                have hx : x = c := hmem x (List.mem_cons_self x t)
                have ht : ∀ y ∈ t, y = c := fun y hy =>
                  hmem y (List.mem_cons_of_mem x hy)
                rw [qMax, qMin, foldl_max_const t x ht hx,
                  foldl_min_const t x ht hx, sub_self]
          show (if qSum ps / (ps.length : ℚ) = 0 then decide (0 < qMax ps - qMin ps)
                else decide (1 < (qMax ps - qMin ps) / (qSum ps / (ps.length : ℚ)) * 100))
              = false
          rw [hdiff]
          by_cases havg : qSum ps / (ps.length : ℚ) = 0
          · simp [havg]
          · simp [havg]
    rw [hfires]
    simp
/-- A clean kline with the given close (volume `0`). -/
def kC (c : ℚ) : Kline :=
  { date := 0, open_ := some 1, high := some 1, low := some 1, close := some c
    volume := some 0 }

/-- One-day sample on which two sources disagree by about 1.98%. -/
def md6 : List MergedDay :=
  [⟨0, [("Binance", kC 100), ("Huobi", kC 102)]⟩]

theorem validateData_priceDeviation_iff_witness :
    ((md6.map fun d => d.date).Nodup ∧ 0 < md6.length
        ∧ allSomes (closesOf (md6.get ⟨0, by decide⟩)) = some [100, 102]
        ∧ 2 ≤ (md6.get ⟨0, by decide⟩).exchanges.length
        ∧ qSum [100, 102] / ((List.length [(100 : ℚ), 102] : Nat) : ℚ) ≠ 0)
      ∧ ∃ a ∈ (validateData md6).anomalies.priceDiff,
          a.date = (md6.get ⟨0, by decide⟩).date := by
  refine ⟨⟨by decide, by decide, rfl, by decide, by norm_num [qSum]⟩, ?_⟩
  have h := (validateData_priceDeviation_iff md6 (by decide) 0 (by decide)).1
      [100, 102] rfl (by decide) (by norm_num [qSum])
  refine h.mpr ?_
  norm_num [qSum, qMax, qMin]

/-- C10.  For a day (of a duplicate-free merged sequence) on which a source
first appears — no day of the preceding up-to-30-entry window has a record
for that source — `calculateAverageVolume` returns `0`; hence any strictly
positive volume of that source on that day produces a `VolumeSpike` entry
(`v > 0 * 3`), and the day is excluded from the valid sequence. -/
theorem validateData_first_day_volume_spike (md : List MergedDay)
    (hnd : (md.map fun d => d.date).Nodup) (i : Nat) (hi : i < md.length)
    (s : String) (k : Kline) (hmem : (s, k) ∈ (md.get ⟨i, hi⟩).exchanges)
    (v : ℚ) (hv : k.volume = some v) (hpos : 0 < v)
    (hwin : ∀ d ∈ (md.drop (i - 30)).take (i - (i - 30)),
        lookupEx d.exchanges s = none) :
    calculateAverageVolume md s i = some 0
      ∧ (∃ a ∈ (validateData md).anomalies.volumeSpikes,
          a.date = (md.get ⟨i, hi⟩).date ∧ a.exchange = s)
      ∧ ∀ m ∈ (validateData md).valid, m.date ≠ (md.get ⟨i, hi⟩).date := by
  have havg : calculateAverageVolume md s i = some 0 := by
    rw [calculateAverageVolume]
    have hempty : (((md.drop (i - 30)).take (i - (i - 30))).filterMap fun d =>
        (lookupEx d.exchanges s).map fun k => k.volume) = [] := by
      rw [List.filterMap_eq_nil]
      intro d hd
      rw [hwin d hd]
      rfl
    rw [hempty]
    rfl
  have hfire : spikeFires k.volume (calculateAverageVolume md s i) = true := by
    rw [havg, hv, spikeFires]
    simpa using hpos
  have hentry :
      ({ date := (md.get ⟨i, hi⟩).date, exchange := s, volume := k.volume,
         avgVolume := calculateAverageVolume md s i } : VolumeSpikeAnomaly)
        ∈ spikeEntries md i (md.get ⟨i, hi⟩) := by
    rw [spikeEntries]
    refine List.mem_filterMap.mpr ⟨(s, k), hmem, ?_⟩
    show (if spikeFires k.volume (calculateAverageVolume md s i) = true then
        some ({ date := (md.get ⟨i, hi⟩).date, exchange := s, volume := k.volume,
                avgVolume := calculateAverageVolume md s i } : VolumeSpikeAnomaly)
      else none) = _
    rw [hfire]
    simp
  refine ⟨havg, ?_, ?_⟩
  · have hform : (validateData md).anomalies.volumeSpikes
        = md.enum.flatMap fun p => spikeEntries md p.1 p.2 := by
      have h := vfold_spikes md md.enum vInit
      rw [validateData] at *
      rw [h]
      simp [vInit]
    refine ⟨{ date := (md.get ⟨i, hi⟩).date, exchange := s, volume := k.volume,
              avgVolume := calculateAverageVolume md s i }, ?_, rfl, rfl⟩
    rw [hform]
    exact List.mem_flatMap.mpr ⟨(i, md.get ⟨i, hi⟩), mem_enum_self md i hi, hentry⟩
  · intro m hm hdate
    have hinvalid : isValidAt md i (md.get ⟨i, hi⟩) = false := by
      rw [isValidAt]
      cases hsp : spikeEntries md i (md.get ⟨i, hi⟩) with
      | nil => rw [hsp] at hentry; cases hentry
      | cons a t => simp
    have hvalid := vfold_valid md md.enum vInit
    rw [validateData] at hm
    rw [hvalid] at hm
    simp only [vInit, List.nil_append] at hm
    obtain ⟨p, hp, hpm⟩ := List.mem_map.mp hm
    have hpmem := List.mem_of_mem_filter hp
    have hpq : p = (i, md.get ⟨i, hi⟩) := by
      have hinj := List.inj_on_of_nodup_map (enum_dates_nodup md hnd)
      refine hinj hpmem (mem_enum_self md i hi) ?_
      show p.2.date = (md.get ⟨i, hi⟩).date
      rw [hpm, hdate]
    have hptrue : isValidAt md i (md.get ⟨i, hi⟩) = true := by
      have hof := List.of_mem_filter hp
      rw [hpq] at hof
      exact hof
    rw [hinvalid] at hptrue
    cases hptrue

/-- A clean kline with volume `5`. -/
def kVol : Kline :=
  { date := 0, open_ := some 1, high := some 1, low := some 1, close := some 1
    volume := some 5 }

/-- One-day sample whose single source has a positive volume on its first
day. -/
def md10 : List MergedDay := [⟨0, [("Huobi", kVol)]⟩]

theorem validateData_first_day_volume_spike_witness :
    ((md10.map fun d => d.date).Nodup ∧ 0 < md10.length
        ∧ ("Huobi", kVol) ∈ (md10.get ⟨0, by decide⟩).exchanges
        ∧ kVol.volume = some 5 ∧ (0 : ℚ) < 5
        ∧ ∀ d ∈ (md10.drop 0).take 0, lookupEx d.exchanges "Huobi" = none)
      ∧ (calculateAverageVolume md10 "Huobi" 0 = some 0
          ∧ (∃ a ∈ (validateData md10).anomalies.volumeSpikes,
              a.date = (md10.get ⟨0, by decide⟩).date ∧ a.exchange = "Huobi")
          ∧ ∀ m ∈ (validateData md10).valid,
              m.date ≠ (md10.get ⟨0, by decide⟩).date) :=
  ⟨⟨by decide, by decide, List.mem_singleton.mpr rfl, rfl, by norm_num,
      by simp⟩,
    validateData_first_day_volume_spike md10 (by decide) 0 (by decide) "Huobi"
      kVol (List.mem_singleton.mpr rfl) 5 rfl (by norm_num) (by simp)⟩
/-! ### Helper lemmas about the date-keyed maps -/

/-- First-some choice on options (the value a keyed overwrite leaves in
place: the new one if present, else the old one). -/
def oor {α : Type} : Option α → Option α → Option α
  | some x, _ => some x
  | none, b => b

theorem oor_idem {α : Type} (a b : Option α) : oor a (oor a b) = oor a b := by
  cases a <;> rfl

theorem getLast?_cons_oor {α : Type} (x : α) (l : List α) :
    (x :: l).getLast? = oor l.getLast? (some x) := by
  cases l with
  | nil => rfl
  | cons y t =>
      rw [List.getLast?_cons_cons]
      cases h : (y :: t).getLast? with
      | none => simp at h
      | some z => rfl

theorem dayAt_eq_none_iff (m : List MergedDay) (dte : Nat) :
    dayAt m dte = none ↔ ∀ d ∈ m, d.date ≠ dte := by
  induction m with
  | nil => simp [dayAt]
  | cons d rest ih =>
      rw [dayAt]
      by_cases h : d.date = dte
      · simp [h]
      · simp [h, ih]

theorem dayAt_mem {m : List MergedDay} {dte : Nat} {d : MergedDay}
    (h : dayAt m dte = some d) : d ∈ m ∧ d.date = dte := by
  induction m with
  | nil => cases h
  | cons x rest ih =>
      rw [dayAt] at h
      by_cases hx : x.date = dte
      · rw [if_pos hx] at h
        cases h
        exact ⟨List.mem_cons_self _ _, hx⟩
      · rw [if_neg hx] at h
        obtain ⟨h1, h2⟩ := ih h
        exact ⟨List.mem_cons_of_mem x h1, h2⟩

theorem dayAt_of_mem_nodup {m : List MergedDay} {d : MergedDay}
    (hnd : (m.map fun x => x.date).Nodup) (hmem : d ∈ m) :
    dayAt m d.date = some d := by
  induction m with
  | nil => cases hmem
  | cons x rest ih =>
      simp only [List.map_cons, List.nodup_cons, List.mem_map] at hnd
      rcases List.mem_cons.mp hmem with h | h
      · subst h
        simp [dayAt]
      · rw [dayAt, if_neg, ih hnd.2 h]
        intro hx
        exact hnd.1 ⟨d, h, hx.symm⟩

theorem dayAt_perm {A B : List MergedDay} (hperm : A.Perm B)
    (hnd : (A.map fun x => x.date).Nodup) (dte : Nat) :
    dayAt A dte = dayAt B dte := by
  cases hA : dayAt A dte with
  | some d =>
      obtain ⟨hmem, hdate⟩ := dayAt_mem hA
      have hndB : (B.map fun x => x.date).Nodup :=
        ((hperm.map fun x => x.date).nodup_iff).mp hnd
      rw [← hdate]
      exact (dayAt_of_mem_nodup hndB (hperm.mem_iff.mp hmem)).symm
  | none =>
      symm
      rw [dayAt_eq_none_iff] at hA ⊢
      intro d hd
      exact hA d (hperm.mem_iff.mpr hd)

theorem lookupEx_setEntry_self (ex : List (String × Kline)) (n : String) (k : Kline) :
    lookupEx (setEntry ex n k) n = some k := by
  induction ex with
  | nil => simp [setEntry, lookupEx]
  | cons p rest ih =>
      obtain ⟨k', v⟩ := p
      rw [setEntry]
      by_cases h : k' = n
      · rw [if_pos h, lookupEx, if_pos h]
      · rw [if_neg h, lookupEx, if_neg h]
        exact ih

theorem lookupEx_setEntry_other (ex : List (String × Kline)) (n n' : String)
    (k : Kline) (h : n' ≠ n) :
    lookupEx (setEntry ex n k) n' = lookupEx ex n' := by
  induction ex with
  | nil =>
      rw [setEntry, lookupEx, lookupEx, if_neg (fun hc => h hc.symm)]
      rfl
  | cons p rest ih =>
      obtain ⟨k', v⟩ := p
      rw [setEntry]
      by_cases hk : k' = n
      · rw [if_pos hk, lookupEx, lookupEx]
        subst hk
        rw [if_neg (fun hc => h hc.symm), if_neg (fun hc => h hc.symm)]
      · rw [if_neg hk, lookupEx, lookupEx]
        by_cases hk' : k' = n'
        · rw [if_pos hk', if_pos hk']
        · rw [if_neg hk', if_neg hk']
          exact ih

theorem insertDay_dates (m : List MergedDay) (n : String) (k : Kline) :
    ((insertDay m n k).map fun d => d.date)
      = if k.date ∈ m.map (fun d => d.date) then m.map fun d => d.date
        else (m.map fun d => d.date) ++ [k.date] := by
  induction m with
  | nil => simp [insertDay]
  | cons d rest ih =>
      rw [insertDay]
      by_cases h : d.date = k.date
      · rw [if_pos h]
        simp [h]
      · rw [if_neg h]
        simp only [List.map_cons, ih, List.mem_cons]
        by_cases hm : k.date ∈ rest.map fun d => d.date
        · rw [if_pos hm, if_pos (Or.inr hm)]
        · rw [if_neg hm,
            if_neg (by rintro (hc | hc); exact h hc.symm; exact hm hc)]
          simp

theorem insertDay_dates_nodup {m : List MergedDay} (n : String) (k : Kline)
    (h : (m.map fun d => d.date).Nodup) :
    ((insertDay m n k).map fun d => d.date).Nodup := by
  rw [insertDay_dates]
  by_cases hm : k.date ∈ m.map fun d => d.date
  · rw [if_pos hm]; exact h
  · rw [if_neg hm]
    refine List.Nodup.append h (List.nodup_singleton _) ?_
    intro a ha hb
    rw [List.mem_singleton] at hb
    subst hb
    exact hm ha

/-- The kline stored for source `n` on day `dte` of a date-keyed map. -/
def dayEntry (m : List MergedDay) (dte : Nat) (n : String) : Option Kline :=
  (dayAt m dte).bind fun d => lookupEx d.exchanges n

theorem dayEntry_insertDay_self (m : List MergedDay) (n : String) (k : Kline) :
    dayEntry (insertDay m n k) k.date n = some k := by
  induction m with
  | nil => simp [insertDay, dayEntry, dayAt, setEntry, lookupEx]
  | cons d rest ih =>
      rw [insertDay]
      by_cases h : d.date = k.date
      · rw [if_pos h]
        simp [dayEntry, dayAt, h, lookupEx_setEntry_self]
      · rw [if_neg h]
        simpa [dayEntry, dayAt, h] using ih

theorem dayEntry_insertDay_other_date (m : List MergedDay) (n n' : String)
    (k : Kline) (dte : Nat) (h : dte ≠ k.date) :
    dayEntry (insertDay m n k) dte n' = dayEntry m dte n' := by
  induction m with
  | nil => simp [insertDay, dayEntry, dayAt, Ne.symm h]
  | cons d rest ih =>
      rw [insertDay]
      by_cases hd : d.date = k.date
      · rw [if_pos hd]
        by_cases hdte : d.date = dte
        · exact absurd (hdte.symm.trans hd) h
        · simp [dayEntry, dayAt, hdte]
      · rw [if_neg hd]
        by_cases hdte : d.date = dte
        · simp [dayEntry, dayAt, hdte]
        · simp only [dayEntry, dayAt, if_neg hdte]
          simpa [dayEntry] using ih

theorem dayEntry_insertDay_other_name (m : List MergedDay) (n n' : String)
    (k : Kline) (dte : Nat) (h : n' ≠ n) :
    dayEntry (insertDay m n k) dte n' = dayEntry m dte n' := by
  induction m with
  | nil =>
      by_cases hd : k.date = dte
      · simp [insertDay, dayEntry, dayAt, hd, lookupEx, Ne.symm h, setEntry]
      · simp [insertDay, dayEntry, dayAt, hd]
  | cons d rest ih =>
      rw [insertDay]
      by_cases hdk : d.date = k.date
      · rw [if_pos hdk]
        by_cases hdte : d.date = dte
        · simp [dayEntry, dayAt, hdte, lookupEx_setEntry_other d.exchanges n n' k h]
        · simp [dayEntry, dayAt, hdte]
      · rw [if_neg hdk]
        by_cases hdte : d.date = dte
        · simp [dayEntry, dayAt, hdte]
        · simp only [dayEntry, dayAt, if_neg hdte]
          simpa [dayEntry] using ih
theorem oor_none_right {α : Type} (a : Option α) : oor a none = a := by
  cases a <;> rfl

theorem oor_some_absorb {α : Type} (a : Option α) (x : α) (b : Option α) :
    oor (oor a (some x)) b = oor a (some x) := by
  cases a <;> rfl

theorem foldl_insertDay_nodup (ks : List Kline) (n : String)
    (m : List MergedDay) (h : (m.map fun d => d.date).Nodup) :
    (((ks.foldl (fun m' k => insertDay m' n k) m)).map fun d => d.date).Nodup := by
  induction ks generalizing m with
  | nil => exact h
  | cons k t ih => exact ih _ (insertDay_dates_nodup n k h)

theorem results_fold_dates_nodup (rs : List ExchResult) (m : List MergedDay)
    (h : (m.map fun d => d.date).Nodup) :
    ((rs.foldl (fun m r => r.data.foldl (fun m' k => insertDay m' r.name k) m)
        m).map fun d => d.date).Nodup := by
  induction rs generalizing m with
  | nil => exact h
  | cons r t ih => exact ih _ (foldl_insertDay_nodup r.data r.name m h)

theorem dayEntry_foldl_insertDay (ks : List Kline) (n : String)
    (m : List MergedDay) (dte : Nat) :
    dayEntry (ks.foldl (fun m' k => insertDay m' n k) m) dte n
      = oor ((ks.filter fun q => q.date = dte).getLast?) (dayEntry m dte n) := by
  induction ks generalizing m with
  | nil => simp [oor]
  | cons k t ih =>
      rw [List.foldl_cons, ih, List.filter_cons]
      by_cases hk : k.date = dte
      · have hself : dayEntry (insertDay m n k) dte n = some k := by
          rw [← hk]
          exact dayEntry_insertDay_self m n k
        rw [hself, if_pos (by simpa using hk), getLast?_cons_oor, oor_some_absorb]
      · rw [dayEntry_insertDay_other_date m n n k dte (fun hc => hk hc.symm),
          if_neg (by simpa using hk)]

theorem dayEntry_foldl_insertDay_other (ks : List Kline) (n n' : String)
    (m : List MergedDay) (dte : Nat) (h : n' ≠ n) :
    dayEntry (ks.foldl (fun m' k => insertDay m' n k) m) dte n'
      = dayEntry m dte n' := by
  induction ks generalizing m with
  | nil => rfl
  | cons k t ih =>
      rw [List.foldl_cons, ih, dayEntry_insertDay_other_name m n n' k dte h]

theorem dayEntry_results_fold_absent (rs : List ExchResult) (m : List MergedDay)
    (dte : Nat) (n : String) (h : ∀ r ∈ rs, r.name ≠ n) :
    dayEntry (rs.foldl (fun m r => r.data.foldl (fun m' k => insertDay m' r.name k) m)
        m) dte n = dayEntry m dte n := by
  induction rs generalizing m with
  | nil => rfl
  | cons r t ih =>
      rw [List.foldl_cons, ih _ fun rr hrr => h rr (List.mem_cons_of_mem r hrr),
        dayEntry_foldl_insertDay_other r.data r.name n m dte
          fun hc => h r (List.mem_cons_self r t) hc.symm]

theorem dayEntry_results_fold (rs : List ExchResult) (m : List MergedDay)
    (dte : Nat) (hnames : (rs.map fun r => r.name).Nodup)
    (r : ExchResult) (hr : r ∈ rs) :
    dayEntry (rs.foldl (fun m r => r.data.foldl (fun m' k => insertDay m' r.name k) m)
        m) dte r.name
      = oor ((r.data.filter fun q => q.date = dte).getLast?)
          (dayEntry m dte r.name) := by
  induction rs generalizing m with
  | nil => cases hr
  | cons r0 t ih =>
      simp only [List.map_cons, List.nodup_cons, List.mem_map] at hnames
      rw [List.foldl_cons]
      rcases List.mem_cons.mp hr with hr0 | hr0
      · subst hr0
        rw [dayEntry_results_fold_absent t _ dte r.name
            (fun rr hrr hc => hnames.1 ⟨rr, hrr, hc⟩),
          dayEntry_foldl_insertDay r.data r.name m dte]
      · rw [ih _ hnames.2 hr0,
          dayEntry_foldl_insertDay_other r0.data r0.name r.name m dte
            (fun hc => hnames.1 ⟨r, hr0, hc⟩)]

theorem sort_dates_pairwise_lt (M : List MergedDay)
    (h : (M.map fun d => d.date).Nodup) :
    ((M.insertionSort dateLe).map fun d => d.date).Pairwise (· < ·) := by
  have hsorted : (M.insertionSort dateLe).Sorted dateLe :=
    List.sorted_insertionSort dateLe M
  have hperm := List.perm_insertionSort dateLe M
  have hnodup : ((M.insertionSort dateLe).map fun d => d.date).Nodup :=
    ((hperm.map fun d => d.date).nodup_iff).mpr h
  have hne : (M.insertionSort dateLe).Pairwise fun a b => a.date ≠ b.date :=
    List.pairwise_map.mp hnodup
  have hle : (M.insertionSort dateLe).Pairwise dateLe := hsorted
  rw [List.pairwise_map]
  exact (hle.and hne).imp fun hab => lt_of_le_of_ne hab.1 hab.2

/-- C5.  The merger's output has strictly ascending (hence unique) dates,
for every input; and (for inputs whose source names are distinct, as in
`main`) the record stored under a source's name for a date is the last
record with that date in that source's sequence — the later record wins
when one source reports a date twice. -/
theorem mergeExchangeData_sorted_lastWins (results : List ExchResult) :
    ((mergeExchangeData results).map fun d => d.date).Pairwise (· < ·)
      ∧ ((results.map fun r => r.name).Nodup →
          ∀ r ∈ results, ∀ k ∈ r.data,
            ∃ m ∈ mergeExchangeData results, m.date = k.date
              ∧ lookupEx m.exchanges r.name
                  = (r.data.filter fun q => q.date = k.date).getLast?) := by
  have hnodup : ((results.foldl
      (fun m r => r.data.foldl (fun m' k => insertDay m' r.name k) m)
      []).map fun d => d.date).Nodup :=
    results_fold_dates_nodup results [] (by simp)
  constructor
  · exact sort_dates_pairwise_lt _ hnodup
  · intro hnames r hr k hk
    have hde := dayEntry_results_fold results [] k.date hnames r hr
    rw [show dayEntry [] k.date r.name = none from rfl, oor_none_right] at hde
    have hkfil : k ∈ r.data.filter fun q => q.date = k.date :=
      List.mem_filter.mpr ⟨hk, by simp⟩
    cases hday : dayAt (results.foldl
        (fun m r => r.data.foldl (fun m' k => insertDay m' r.name k) m) []) k.date with
    | none =>
        rw [dayEntry, hday] at hde
        have : (r.data.filter fun q => q.date = k.date) = [] :=
          List.getLast?_eq_none_iff.mp hde.symm
        rw [this] at hkfil
        cases hkfil
    | some d =>
        obtain ⟨hmem, hdate⟩ := dayAt_mem hday
        refine ⟨d, ?_, hdate, ?_⟩
        · exact (List.perm_insertionSort dateLe _).mem_iff.mpr hmem
        · rw [dayEntry, hday] at hde
          exact hde
/-- Two records of one source sharing date `3` (the later one must win). -/
def kD1 : Kline :=
  { date := 3, open_ := some 1, high := some 1, low := some 1, close := some 7
    volume := some 1 }

/-- Second record for date `3`. -/
def kD2 : Kline :=
  { date := 3, open_ := some 2, high := some 2, low := some 2, close := some 9
    volume := some 2 }

/-- One-source input with a duplicated date. -/
def rs5 : List ExchResult := [⟨"Binance", [kD1, kD2]⟩]

theorem mergeExchangeData_sorted_lastWins_witness :
    ((rs5.map fun r => r.name).Nodup
        ∧ ⟨"Binance", [kD1, kD2]⟩ ∈ rs5 ∧ kD1 ∈ [kD1, kD2])
      ∧ (((mergeExchangeData rs5).map fun d => d.date).Pairwise (· < ·)
          ∧ ∃ m ∈ mergeExchangeData rs5, m.date = kD1.date
              ∧ lookupEx m.exchanges "Binance"
                  = ([kD1, kD2].filter fun q => q.date = kD1.date).getLast?) := by
  have h := mergeExchangeData_sorted_lastWins rs5
  refine ⟨⟨by decide, List.mem_singleton.mpr rfl, by decide⟩, h.1, ?_⟩
  exact h.2 (by decide) ⟨"Binance", [kD1, kD2]⟩ (List.mem_singleton.mpr rfl) kD1
    (by decide)

theorem mapSet_dates (m : List MergedDay) (x : MergedDay) :
    ((mapSet m x).map fun d => d.date)
      = if x.date ∈ m.map (fun d => d.date) then m.map fun d => d.date
        else (m.map fun d => d.date) ++ [x.date] := by
  induction m with
  | nil => simp [mapSet]
  | cons d rest ih =>
      rw [mapSet]
      by_cases h : d.date = x.date
      · rw [if_pos h]
        simp [h]
      · rw [if_neg h]
        simp only [List.map_cons, ih, List.mem_cons]
        by_cases hm : x.date ∈ rest.map fun d => d.date
        · rw [if_pos hm, if_pos (Or.inr hm)]
        · rw [if_neg hm,
            if_neg (by rintro (hc | hc); exact h hc.symm; exact hm hc)]
          simp

theorem mapSet_dates_nodup {m : List MergedDay} (x : MergedDay)
    (h : (m.map fun d => d.date).Nodup) :
    ((mapSet m x).map fun d => d.date).Nodup := by
  rw [mapSet_dates]
  by_cases hm : x.date ∈ m.map fun d => d.date
  · rw [if_pos hm]; exact h
  · rw [if_neg hm]
    refine List.Nodup.append h (List.nodup_singleton _) ?_
    intro a ha hb
    rw [List.mem_singleton] at hb
    subst hb
    exact hm ha

theorem foldl_mapSet_nodup (l : List MergedDay) (m : List MergedDay)
    (h : (m.map fun d => d.date).Nodup) :
    ((l.foldl mapSet m).map fun d => d.date).Nodup := by
  induction l generalizing m with
  | nil => exact h
  | cons x t ih => exact ih _ (mapSet_dates_nodup x h)

theorem dayAt_mapSet_self (m : List MergedDay) (x : MergedDay) :
    dayAt (mapSet m x) x.date = some x := by
  induction m with
  | nil => simp [mapSet, dayAt]
  | cons d rest ih =>
      rw [mapSet]
      by_cases h : d.date = x.date
      · rw [if_pos h, dayAt, if_pos rfl]
      · rw [if_neg h, dayAt, if_neg h]
        exact ih

theorem dayAt_mapSet_other (m : List MergedDay) (x : MergedDay) (dte : Nat)
    (h : dte ≠ x.date) :
    dayAt (mapSet m x) dte = dayAt m dte := by
  induction m with
  | nil => simp [mapSet, dayAt, Ne.symm h]
  | cons d rest ih =>
      rw [mapSet]
      by_cases hd : d.date = x.date
      · rw [if_pos hd, dayAt, dayAt, if_neg (fun hc : x.date = dte => h hc.symm),
          if_neg (fun hc : d.date = dte => h (hd ▸ hc).symm)]
      · rw [if_neg hd, dayAt, dayAt]
        by_cases hdte : d.date = dte
        · rw [if_pos hdte, if_pos hdte]
        · rw [if_neg hdte, if_neg hdte]
          exact ih

theorem dayAt_foldl_mapSet (l : List MergedDay) (m : List MergedDay) (dte : Nat) :
    dayAt (l.foldl mapSet m) dte
      = oor ((l.filter fun q => q.date = dte).getLast?) (dayAt m dte) := by
  induction l generalizing m with
  | nil => simp [oor]
  | cons x t ih =>
      rw [List.foldl_cons, ih, List.filter_cons]
      by_cases hx : x.date = dte
      · have hself : dayAt (mapSet m x) dte = some x := by
          rw [← hx]
          exact dayAt_mapSet_self m x
        rw [hself, if_pos (by simpa using hx), getLast?_cons_oor, oor_some_absorb]
      · rw [dayAt_mapSet_other m x dte (fun hc => hx hc.symm),
          if_neg (by simpa using hx)]

theorem mapSet_append_of_not_mem (m : List MergedDay) (x : MergedDay)
    (h : x.date ∉ m.map fun d => d.date) :
    mapSet m x = m ++ [x] := by
  induction m with
  | nil => rfl
  | cons d rest ih =>
      simp only [List.map_cons, List.mem_cons, not_or] at h
      rw [mapSet, if_neg (fun hc => h.1 hc.symm), ih h.2]
      rfl

theorem foldl_mapSet_id (l : List MergedDay) (m : List MergedDay)
    (h : ((m.map fun d => d.date) ++ l.map fun d => d.date).Nodup) :
    l.foldl mapSet m = m ++ l := by
  induction l generalizing m with
  | nil => simp
  | cons x t ih =>
      have hx : x.date ∉ m.map fun d => d.date := by
        intro hc
        rw [List.nodup_append] at h
        exact h.2.2 hc (by simp)
      rw [List.foldl_cons, mapSet_append_of_not_mem m x hx, ih]
      · simp
      · simpa using h
theorem filter_date_eq_singleton {inc : List MergedDay} {n : MergedDay}
    (hnd : (inc.map fun d => d.date).Nodup) (hn : n ∈ inc) :
    inc.filter (fun q => q.date = n.date) = [n] := by
  induction inc with
  | nil => cases hn
  | cons x t ih =>
      simp only [List.map_cons, List.nodup_cons, List.mem_map] at hnd
      rw [List.filter_cons]
      rcases List.mem_cons.mp hn with h | h
      · subst h
        rw [if_pos (by simp)]
        have ht : t.filter (fun q => q.date = n.date) = [] := by
          rw [List.filter_eq_nil]
          intro q hq
          simp only [decide_eq_true_eq]
          intro hc
          exact hnd.1 ⟨q, hq, hc⟩
        rw [ht]
      · rw [if_neg, ih hnd.2 h]
        simp only [decide_eq_true_eq]
        intro hc
        exact hnd.1 ⟨n, h, hc.symm⟩

theorem dayAt_ext : ∀ (A B : List MergedDay),
    ((A.map fun d => d.date).Pairwise (· < ·)) →
    ((B.map fun d => d.date).Pairwise (· < ·)) →
    (∀ dte, dayAt A dte = dayAt B dte) → A = B
  | [], [], _, _, _ => rfl
  | [], b :: B', _, _, h => by
      have hb := h b.date
      have e : dayAt (b :: B') b.date = some b := by rw [dayAt, if_pos rfl]
      rw [e, show dayAt [] b.date = none from rfl] at hb
      cases hb
  | a :: A', [], _, _, h => by
      have ha := h a.date
      have e : dayAt (a :: A') a.date = some a := by rw [dayAt, if_pos rfl]
      rw [e, show dayAt [] a.date = none from rfl] at ha
      cases ha
  | a :: A', b :: B', hA, hB, h => by
      rw [List.map_cons, List.pairwise_cons] at hA hB
      by_cases hdab : a.date = b.date
      · have hab : a = b := by
          have ha := h a.date
          have e3 : dayAt (a :: A') a.date = some a := by rw [dayAt, if_pos rfl]
          have e4 : dayAt (b :: B') a.date = some b := by
            rw [dayAt, if_pos hdab.symm]
          rw [e3, e4] at ha
          exact Option.some_inj.mp ha
        subst hab
        have htail : A' = B' := by
          refine dayAt_ext A' B' hA.2 hB.2 ?_
          intro dte
          by_cases hdte : dte = a.date
          · subst hdte
            have h1 : dayAt A' a.date = none := by
              rw [dayAt_eq_none_iff]
              intro d hd
              exact fun hc =>
                absurd (hc ▸ hA.1 d.date (List.mem_map_of_mem _ hd)) (lt_irrefl _)
            have h2 : dayAt B' a.date = none := by
              rw [dayAt_eq_none_iff]
              intro d hd
              exact fun hc =>
                absurd (hc ▸ (hdab ▸ hB.1 d.date (List.mem_map_of_mem _ hd)))
                  (lt_irrefl _)
            rw [h1, h2]
          · have hstep := h dte
            have e5 : dayAt (a :: A') dte = dayAt A' dte := by
              rw [dayAt, if_neg (fun hc : a.date = dte => hdte hc.symm)]
            have e6 : dayAt (a :: B') dte = dayAt B' dte := by
              rw [dayAt, if_neg (fun hc : a.date = dte => hdte hc.symm)]
            rw [e5, e6] at hstep
            exact hstep
        rw [htail]
      · exfalso
        have hb := h b.date
        have e1 : dayAt (b :: B') b.date = some b := by rw [dayAt, if_pos rfl]
        have e2 : dayAt (a :: A') b.date = dayAt A' b.date := by
          rw [dayAt, if_neg hdab]
        rw [e1, e2] at hb
        obtain ⟨hbmem, _⟩ := dayAt_mem hb
        have h1 : a.date < b.date :=
          hA.1 b.date (List.mem_map_of_mem _ hbmem)
        have ha := h a.date
        have e3 : dayAt (a :: A') a.date = some a := by rw [dayAt, if_pos rfl]
        have e4 : dayAt (b :: B') a.date = dayAt B' a.date := by
          rw [dayAt, if_neg (fun hc : b.date = a.date => hdab hc.symm)]
        rw [e3, e4] at ha
        obtain ⟨hamem, _⟩ := dayAt_mem ha.symm
        have h2 : b.date < a.date :=
          hB.1 a.date (List.mem_map_of_mem _ hamem)
        exact lt_asymm h1 h2
/-- C7.  The incremental merger: (1) an incoming record fully replaces the
record stored for its date (for incoming sequences without duplicate dates,
as produced by validation); (2) the result's dates are strictly ascending;
(3) reconciling twice with the same incoming sequence equals reconciling
once; (4) with no prior persisted sequence the incoming sequence is returned
unchanged. -/
theorem mergeWithExistingData_spec :
    (∀ (ex inc : List MergedDay), (inc.map fun d => d.date).Nodup →
        ∀ n ∈ inc, dayAt (mergeWithExistingData (some ex) inc) n.date = some n)
      ∧ (∀ ex inc : List MergedDay,
          ((mergeWithExistingData (some ex) inc).map fun d => d.date).Pairwise
            (· < ·))
      ∧ (∀ ex inc : List MergedDay,
          mergeWithExistingData (some (mergeWithExistingData (some ex) inc)) inc
            = mergeWithExistingData (some ex) inc)
      ∧ ∀ inc : List MergedDay, mergeWithExistingData none inc = inc := by
  have hM : ∀ ex inc : List MergedDay,
      ((inc.foldl mapSet (ex.foldl mapSet [])).map fun d => d.date).Nodup :=
    fun ex inc =>
      foldl_mapSet_nodup inc _ (foldl_mapSet_nodup ex [] (by simp))
  have hsortnd : ∀ ex inc : List MergedDay,
      ((mergeWithExistingData (some ex) inc).map fun d => d.date).Nodup := by
    intro ex inc
    show (((inc.foldl mapSet (ex.foldl mapSet [])).insertionSort dateLe).map
      fun d => d.date).Nodup
    exact (((List.perm_insertionSort dateLe _).map fun d => d.date).nodup_iff).mpr
      (hM ex inc)
  have hpair : ∀ ex inc : List MergedDay,
      ((mergeWithExistingData (some ex) inc).map fun d => d.date).Pairwise
        (· < ·) := by
    intro ex inc
    exact sort_dates_pairwise_lt _ (hM ex inc)
  have hdayAt : ∀ (ex inc : List MergedDay) (dte : Nat),
      dayAt (mergeWithExistingData (some ex) inc) dte
        = oor ((inc.filter fun q => q.date = dte).getLast?)
            (dayAt (ex.foldl mapSet []) dte) := by
    intro ex inc dte
    have hperm := List.perm_insertionSort dateLe
      (inc.foldl mapSet (ex.foldl mapSet []))
    have hnodupsort :
        (((inc.foldl mapSet (ex.foldl mapSet [])).insertionSort dateLe).map
          fun d => d.date).Nodup :=
      ((hperm.map fun d => d.date).nodup_iff).mpr (hM ex inc)
    show dayAt ((inc.foldl mapSet (ex.foldl mapSet [])).insertionSort dateLe) dte
      = _
    rw [dayAt_perm hperm hnodupsort dte, dayAt_foldl_mapSet inc _ dte]
  refine ⟨?_, hpair, ?_, fun inc => rfl⟩
  · intro ex inc hnd n hn
    rw [hdayAt ex inc n.date, filter_date_eq_singleton hnd hn]
    rfl
  · intro ex inc
    have hRid : (mergeWithExistingData (some ex) inc).foldl mapSet []
        = mergeWithExistingData (some ex) inc := by
      have h := foldl_mapSet_id (mergeWithExistingData (some ex) inc) []
        (by simpa using hsortnd ex inc)
      simpa using h
    have hCnodup : ((inc.foldl mapSet
        (mergeWithExistingData (some ex) inc)).map fun d => d.date).Nodup :=
      foldl_mapSet_nodup inc _ (hsortnd ex inc)
    have hdC : ∀ dte,
        dayAt ((inc.foldl mapSet
            (mergeWithExistingData (some ex) inc)).insertionSort dateLe) dte
          = dayAt (mergeWithExistingData (some ex) inc) dte := by
      intro dte
      have hperm := List.perm_insertionSort dateLe
        (inc.foldl mapSet (mergeWithExistingData (some ex) inc))
      have hnodupsort : (((inc.foldl mapSet
          (mergeWithExistingData (some ex) inc)).insertionSort dateLe).map
            fun d => d.date).Nodup :=
        ((hperm.map fun d => d.date).nodup_iff).mpr hCnodup
      rw [dayAt_perm hperm hnodupsort dte, dayAt_foldl_mapSet inc _ dte,
        hdayAt ex inc dte, oor_idem, ← hdayAt ex inc dte]
    have hsortpair := sort_dates_pairwise_lt
      (inc.foldl mapSet (mergeWithExistingData (some ex) inc)) hCnodup
    show (inc.foldl mapSet ((mergeWithExistingData (some ex) inc).foldl mapSet
        [])).insertionSort dateLe = mergeWithExistingData (some ex) inc
    rw [hRid]
    exact dayAt_ext _ _ hsortpair (hpair ex inc) hdC

/-- Existing one-day persisted dataset for the incremental-merge witness. -/
def ex7 : List MergedDay := [⟨0, [("Binance", kOk)]⟩]

/-- Incoming record replacing day `0`. -/
def d70 : MergedDay := ⟨0, [("Huobi", kNaN)]⟩

/-- Incoming two-day sequence for the incremental-merge witness. -/
def inc7 : List MergedDay := [d70, ⟨1, [("Binance", kOk)]⟩]

theorem mergeWithExistingData_spec_witness :
    ((inc7.map fun d => d.date).Nodup ∧ d70 ∈ inc7)
      ∧ dayAt (mergeWithExistingData (some ex7) inc7) d70.date = some d70
      ∧ ((mergeWithExistingData (some ex7) inc7).map fun d => d.date).Pairwise
          (· < ·)
      ∧ mergeWithExistingData (some (mergeWithExistingData (some ex7) inc7)) inc7
          = mergeWithExistingData (some ex7) inc7
      ∧ mergeWithExistingData none inc7 = inc7 :=
  ⟨⟨by decide, by decide⟩,
    mergeWithExistingData_spec.1 ex7 inc7 (by decide) d70 (by decide),
    mergeWithExistingData_spec.2.1 ex7 inc7,
    mergeWithExistingData_spec.2.2.1 ex7 inc7,
    mergeWithExistingData_spec.2.2.2 inc7⟩
/-! ### Fetch-loop behavior at the consecutive-failure ceiling -/

theorem fetchAllDataGo_fail_loop (env : Nat → FetchStep) (endTime : Nat)
    (henv : ∀ j, env j = FetchStep.fail) :
    ∀ fuel failCount step curTime (acc : List RawKline), curTime < endTime →
      failCount < MAX_FAILURES → MAX_FAILURES - failCount ≤ fuel →
      PriceFetcher.fetchAllDataGo env endTime fuel step curTime failCount acc
        = some acc := by
  intro fuel
  induction fuel with
  | zero =>
      intro failCount step curTime acc _ h1 h2
      exact absurd h2 (by omega)
  | succ f ih =>
      intro failCount step curTime acc ht h1 h2
      rw [PriceFetcher.fetchAllDataGo, if_pos ht, henv step]
      by_cases hc : MAX_FAILURES ≤ failCount + 1
      · rw [if_pos hc]
      · rw [if_neg hc]
        exact ih (failCount + 1) (step + 1) curTime acc ht (by omega) (by omega)

theorem fetchKlinesGo_fail_loop (env : Nat → OkxStep) (endTime : Nat)
    (henv : ∀ j, env j = OkxStep.fail) :
    ∀ fuel failCount step curTime (acc : List OkxRaw), curTime < endTime →
      failCount < MAX_FAILURES → MAX_FAILURES - failCount ≤ fuel →
      OKXExchange.fetchKlinesGo env endTime fuel step curTime failCount acc
        = some (Except.error "Too many consecutive failures") := by
  intro fuel
  induction fuel with
  | zero =>
      intro failCount step curTime acc _ h1 h2
      exact absurd h2 (by omega)
  | succ f ih =>
      intro failCount step curTime acc ht h1 h2
      rw [OKXExchange.fetchKlinesGo, if_pos ht, henv step]
      by_cases hc : MAX_FAILURES ≤ failCount + 1
      · rw [if_pos hc]
      · rw [if_neg hc]
        exact ih (failCount + 1) (step + 1) curTime acc ht (by omega) (by omega)

/-- An endpoint that fails every request. -/
def envOkxFail : Nat → OkxStep := fun _ => OkxStep.fail

/-- C1 counterexample.  Run `OKXExchange.fetchKlines` against an endpoint
that always fails: on the 10th consecutive failure it does *not* return the
accumulated records — it raises `'Too many consecutive failures'`. -/
theorem okxFetchKlines_ceiling_throws :
    OKXExchange.fetchKlines envOkxFail 12 0 1
        = some (Except.error "Too many consecutive failures")
      ∧ ∀ data : List Kline,
          OKXExchange.fetchKlines envOkxFail 12 0 1 ≠ some (Except.ok data) := by
  refine ⟨rfl, ?_⟩
  intro data h
  rw [show OKXExchange.fetchKlines envOkxFail 12 0 1
      = some (Except.error "Too many consecutive failures") from rfl] at h
  simp at h

/-- C1 amended.  When the consecutive-failure counter reaches the ceiling of
10, `PriceFetcher.fetchAllData`'s loop terminates and returns the records
accumulated so far as a normal result; but `OKXExchange.fetchKlines` (the
exchange client used by the pipeline) instead terminates by raising
`'Too many consecutive failures'`. -/
theorem fetch_ceiling_return_vs_throw :
    (∀ (env : Nat → FetchStep) (endTime fuel step curTime : Nat)
        (acc : List RawKline), curTime < endTime → MAX_FAILURES ≤ fuel →
        (∀ j, env j = FetchStep.fail) →
        PriceFetcher.fetchAllDataGo env endTime fuel step curTime 0 acc
          = some acc)
      ∧ ∀ (env : Nat → OkxStep) (endTime fuel step curTime : Nat)
          (acc : List OkxRaw), curTime < endTime → MAX_FAILURES ≤ fuel →
          (∀ j, env j = OkxStep.fail) →
          OKXExchange.fetchKlinesGo env endTime fuel step curTime 0 acc
            = some (Except.error "Too many consecutive failures") := by
  constructor
  · intro env endTime fuel step curTime acc ht hf henv
    exact fetchAllDataGo_fail_loop env endTime henv fuel 0 step curTime acc ht
      (by rw [MAX_FAILURES]; omega) (by omega)
  · intro env endTime fuel step curTime acc ht hf henv
    exact fetchKlinesGo_fail_loop env endTime henv fuel 0 step curTime acc ht
      (by rw [MAX_FAILURES]; omega) (by omega)

/-- An endpoint that fails every request, for the fetcher loop. -/
def envFetchFail : Nat → FetchStep := fun _ => FetchStep.fail

/-- A nonempty accumulator to exhibit that accumulated records are returned. -/
def accSoFar : List RawKline := [⟨86400000⟩]

theorem fetch_ceiling_return_vs_throw_witness :
    ((0 : Nat) < 1 ∧ MAX_FAILURES ≤ 12
        ∧ (∀ j, envFetchFail j = FetchStep.fail)
        ∧ ∀ j, envOkxFail j = OkxStep.fail)
      ∧ PriceFetcher.fetchAllDataGo envFetchFail 1 12 0 0 0 accSoFar
          = some accSoFar
      ∧ OKXExchange.fetchKlinesGo envOkxFail 1 12 0 0 0 []
          = some (Except.error "Too many consecutive failures") :=
  ⟨⟨by decide, by decide, fun _ => rfl, fun _ => rfl⟩,
    fetch_ceiling_return_vs_throw.1 envFetchFail 1 12 0 0 accSoFar
      (by decide) (by decide) fun _ => rfl,
    fetch_ceiling_return_vs_throw.2 envOkxFail 1 12 0 0 []
      (by decide) (by decide) fun _ => rfl⟩
/-! ### Request-loop accounting -/

theorem makeRequestGo_acct (env : Nat → ReqStep) :
    ∀ fuel attempt,
      (PriceFetcher.makeRequestGo env fuel attempt).probes
          = (PriceFetcher.makeRequestGo env fuel attempt).dnsFails
            + (PriceFetcher.makeRequestGo env fuel attempt).requests
        ∧ (PriceFetcher.makeRequestGo env fuel attempt).requests
            = (PriceFetcher.makeRequestGo env fuel attempt).reqFails
              + (if (PriceFetcher.makeRequestGo env fuel attempt).outcome
                    = ReqOutcome.success then 1 else 0)
        ∧ (PriceFetcher.makeRequestGo env fuel attempt).probes ≤ fuel
        ∧ (PriceFetcher.makeRequestGo env fuel attempt).rotations
              + (if (PriceFetcher.makeRequestGo env fuel attempt).outcome
                    = ReqOutcome.threw then 1 else 0)
            = (PriceFetcher.makeRequestGo env fuel attempt).dnsFails
              + (PriceFetcher.makeRequestGo env fuel attempt).reqFails := by
  intro fuel
  induction fuel with
  | zero =>
      intro attempt
      simp [PriceFetcher.makeRequestGo]
  | succ f ih =>
      intro attempt
      rw [PriceFetcher.makeRequestGo]
      cases henv : env attempt with
      | dnsFail =>
          obtain ⟨h1, h2, h3, h4⟩ := ih (attempt + 1)
          simp only
          refine ⟨by omega, h2, by omega, ?_⟩
          generalize hw : (if (PriceFetcher.makeRequestGo env f (attempt + 1)).outcome
              = ReqOutcome.threw then 1 else 0) = w at h4
          omega
      | reqOk => simp
      | reqFail =>
          by_cases hf : f = 0
          · rw [if_pos hf]
            simp
          · rw [if_neg hf]
            obtain ⟨h1, h2, h3, h4⟩ := ih (attempt + 1)
            simp only
            refine ⟨by omega, by omega, by omega, ?_⟩
            generalize hw : (if (PriceFetcher.makeRequestGo env f (attempt + 1)).outcome
                = ReqOutcome.threw then 1 else 0) = w at h4
            omega
theorem baseMakeRequestGo_acct (env : Nat → ReqStep) :
    ∀ fuel i,
      (BaseExchange.makeRequestGo env fuel i).probes
          = (BaseExchange.makeRequestGo env fuel i).dnsFails
            + (BaseExchange.makeRequestGo env fuel i).requests
        ∧ (BaseExchange.makeRequestGo env fuel i).requests
            = (BaseExchange.makeRequestGo env fuel i).reqFails
              + (if (BaseExchange.makeRequestGo env fuel i).outcome
                    = ReqOutcome.success then 1 else 0)
        ∧ (BaseExchange.makeRequestGo env fuel i).probes ≤ fuel
        ∧ (BaseExchange.makeRequestGo env fuel i).rotations = 0 := by
  intro fuel
  induction fuel with
  | zero =>
      intro i
      simp [BaseExchange.makeRequestGo]
  | succ f ih =>
      intro i
      rw [BaseExchange.makeRequestGo]
      cases henv : env i with
      | dnsFail =>
          obtain ⟨h1, h2, h3, h4⟩ := ih (i + 1)
          simp only
          exact ⟨by omega, h2, by omega, h4⟩
      | reqOk => simp
      | reqFail =>
          obtain ⟨h1, h2, h3, h4⟩ := ih (i + 1)
          simp only
          exact ⟨by omega, by omega, by omega, h4⟩

/-- C8 amended.  In both retry loops every iteration starts with a DNS
probe, so an HTTP request is only ever issued behind a successful probe
(`probes = dnsFails + requests`); but a failed probe *consumes one of the
bounded attempts* — the probe count, not the request count, is what the
`maxRetries` bound caps.  In `PriceFetcher.makeRequest` a failed probe also
rotates the endpoint (rotations account for every DNS failure and every
non-final request failure); `BaseExchange.makeRequest` never rotates. -/
theorem makeRequest_probe_accounting :
    (∀ (env : Nat → ReqStep) (maxRetries : Nat),
        (PriceFetcher.makeRequest env maxRetries).probes
            = (PriceFetcher.makeRequest env maxRetries).dnsFails
              + (PriceFetcher.makeRequest env maxRetries).requests
          ∧ (PriceFetcher.makeRequest env maxRetries).requests
              = (PriceFetcher.makeRequest env maxRetries).reqFails
                + (if (PriceFetcher.makeRequest env maxRetries).outcome
                      = ReqOutcome.success then 1 else 0)
          ∧ (PriceFetcher.makeRequest env maxRetries).probes ≤ maxRetries
          ∧ (PriceFetcher.makeRequest env maxRetries).rotations
                + (if (PriceFetcher.makeRequest env maxRetries).outcome
                      = ReqOutcome.threw then 1 else 0)
              = (PriceFetcher.makeRequest env maxRetries).dnsFails
                + (PriceFetcher.makeRequest env maxRetries).reqFails)
      ∧ ∀ (env : Nat → ReqStep) (maxRetries : Nat),
          (BaseExchange.makeRequest env maxRetries).probes
              = (BaseExchange.makeRequest env maxRetries).dnsFails
                + (BaseExchange.makeRequest env maxRetries).requests
            ∧ (BaseExchange.makeRequest env maxRetries).probes ≤ maxRetries
            ∧ (BaseExchange.makeRequest env maxRetries).rotations = 0 :=
  ⟨fun env maxRetries => makeRequestGo_acct env maxRetries 0,
    fun env maxRetries =>
      ⟨(baseMakeRequestGo_acct env maxRetries 0).1,
        (baseMakeRequestGo_acct env maxRetries 0).2.2.1,
        (baseMakeRequestGo_acct env maxRetries 0).2.2.2⟩⟩

/-- A host whose DNS probe always fails. -/
def envDnsAlways : Nat → ReqStep := fun _ => ReqStep.dnsFail

/-- C8 counterexample.  With a DNS probe that always fails and 3 retries,
`PriceFetcher.makeRequest` exhausts its whole attempt budget on probes: it
performs 3 probes, 3 rotations and *zero* HTTP requests, then falls off the
loop — so a failed probe does consume a bounded retry attempt, and the
budget is not spent only on actual request failures.  `BaseExchange`
likewise burns all 3 attempts on probes and throws, without rotating. -/
theorem makeRequest_dns_consumes_attempts :
    PriceFetcher.makeRequest envDnsAlways 3
        = { outcome := ReqOutcome.fellOff, probes := 3, requests := 0,
            dnsFails := 3, reqFails := 0, rotations := 3 }
      ∧ BaseExchange.makeRequest envDnsAlways 3
          = { outcome := ReqOutcome.threw, probes := 3, requests := 0,
              dnsFails := 3, reqFails := 0, rotations := 0 } :=
  ⟨rfl, rfl⟩
/-! ### Pipeline composition behavior -/

/-- C3 counterexample.  When every source's fetch has failed (both results
are `null`), `main` persists nothing — but it also exits with code `0`, not
a non-zero code: the per-exchange `.catch` swallows the failures, so the
`catch` in `main` that calls `process.exit(1)` is never reached. -/
theorem mainRun_allFail_exit_zero :
    (mainRun Mode.full none [none, none]).persisted = none
      ∧ (mainRun Mode.full none [none, none]).exitCode = 0 :=
  ⟨rfl, rfl⟩

/-- C3 amended.  If every source's fetch fails, the pipeline skips the whole
persistence block (prior persisted state is untouched) and the process ends
normally with exit code `0`; `process.exit(1)` is reserved for exceptions
that reach `main`'s own catch (e.g. a persistence failure), which the
all-fetches-failed condition never triggers. -/
theorem mainRun_allFail_no_persist (mode : Mode)
    (existing : Option (List MergedDay)) (results : List (Option ExchResult))
    (h : ∀ r ∈ results, r = none) :
    (mainRun mode existing results).persisted = none
      ∧ (mainRun mode existing results).exitCode = 0 := by
  have hempty : results.filterMap id = [] := by
    rw [List.filterMap_eq_nil]
    intro a ha
    rw [h a ha]
    rfl
  constructor <;> simp [mainRun, hempty]

theorem mainRun_allFail_no_persist_witness :
    (∀ r ∈ ([none, none] : List (Option ExchResult)), r = none)
      ∧ (mainRun Mode.increment (some ex7) [none, none]).persisted = none
      ∧ (mainRun Mode.increment (some ex7) [none, none]).exitCode = 0 :=
  ⟨by decide,
    (mainRun_allFail_no_persist Mode.increment (some ex7) [none, none]
      (by decide)).1,
    (mainRun_allFail_no_persist Mode.increment (some ex7) [none, none]
      (by decide)).2⟩

/-- A kline with a `NaN` volume: the day fails the completeness rule, so it
is excluded from `valid`, while its close of `200` still dominates the
merged-series price statistics. -/
def kX : Kline :=
  { date := 3, open_ := some 1, high := some 1, low := some 1
    close := some 200, volume := none }

/-- C4 counterexample.  On a one-day input whose single day is invalid, the
persisted analysis reports a highest price of `200` — it was computed over
the raw merged sequence — while the analysis of the validator's `valid`
output (which is empty here) would report `0`. -/
theorem mainRun_analysis_not_over_valid :
    ((mainRun Mode.full none [some ⟨"Binance", [kX]⟩]).persisted.map
        fun P => P.analysis.priceHighest.value) = some 200
      ∧ (analyzeData (validateData (mergeExchangeData
          [⟨"Binance", [kX]⟩])).valid).priceHighest.value = 0
      ∧ (200 : ℚ) ≠ 0 := by
  refine ⟨rfl, ?_, by norm_num⟩
  have hvalid : (validateData (mergeExchangeData [⟨"Binance", [kX]⟩])).valid
      = [] := rfl
  rw [hvalid]
  rfl

/-- C4 amended.  Whenever `main` persists at all, the persisted analysis is
`analyzeData` applied to the raw *merged* sequence — not to the validator's
`valid` sequence. -/
theorem mainRun_analysis_over_merged (mode : Mode)
    (existing : Option (List MergedDay)) (results : List (Option ExchResult))
    (h : results.filterMap id ≠ []) :
    (mainRun mode existing results).persisted.map (fun P => P.analysis)
      = some (analyzeData (mergeExchangeData (results.filterMap id))) := by
  have hne : ¬ (results.filterMap id).isEmpty = true := by
    simpa [List.isEmpty_iff] using h
  cases mode <;> simp [mainRun, hne]

theorem mainRun_analysis_over_merged_witness :
    ([some ⟨"Binance", [kX]⟩] : List (Option ExchResult)).filterMap id ≠ []
      ∧ (mainRun Mode.full none [some ⟨"Binance", [kX]⟩]).persisted.map
          (fun P => P.analysis)
        = some (analyzeData (mergeExchangeData
            (([some ⟨"Binance", [kX]⟩] : List (Option ExchResult)).filterMap id))) :=
  ⟨by decide,
    mainRun_analysis_over_merged Mode.full none [some ⟨"Binance", [kX]⟩]
      (by decide)⟩
